import Mathlib

/-!
Verification development for the novel-condenser core of the AINovelLab
repository.

The definitions below are shallow embeddings of the Python source:

* `src/core/novel_condenser/key_manager.py` — `APIKeyManager` (credential
  pool, rolling-window rate limiting, error policy, concurrency ceiling);
* `src/core/novel_condenser/api_service.py` — the chunker in
  `condense_novel_gemini` / `condense_novel_openai` and the transport-level
  retry loop of `_process_content_with_gemini` / `_process_content_with_openai`;
* `src/core/novel_condenser/main.py` — the skip check and failure-stub
  writing of `process_single_file`.

Modelling conventions: wall-clock timestamps are rationals (`Rat`); Python
strings are `List Char` (Python indexes and measures `str` by characters);
a Python `deque` is a `List` whose head is the oldest element; Python dicts
keyed by API key are association lists.  Floating-point score arithmetic is
modelled over `Rat`; none of the proved properties depends on the rounding
of the score, only on which candidates are eligible.
-/

/-! ## Character-list utilities (Python `str` operations) -/

/-- Python's substring test `needle in hay`, on character lists. -/
def listContainsSub (needle hay : List Char) : Bool :=
  (List.range (hay.length + 1)).any (fun i => needle.isPrefixOf (hay.drop i))

/-- Byte length of the UTF-8 encoding of a character list (the on-disk size
of a file holding this text in UTF-8). -/
def utf8Len (l : List Char) : Nat := (l.map Char.utf8Size).sum

/-- Python's `str.isspace` on the ASCII whitespace range (the only
whitespace characters exercised by this code base). -/
def pyIsSpace (c : Char) : Bool :=
  c == ' ' || c == '\t' || c == '\n' || c == '\r' || c == '\x0b' || c == '\x0c'

/-- Python's `not content or len(content.strip()) == 0`: the text is empty or
whitespace-only (api_service.py lines 52 and 440). -/
def pyStripIsEmpty (l : List Char) : Bool := l.all pyIsSpace

/-! ## Skip check and failure stub (`main.py`, `process_single_file`) -/

/-- Error keyword `"错误"` checked at main.py line 95. -/
def kwCuowu : List Char := "错误".toList

/-- Error keyword `"失败"` checked at main.py line 95. -/
def kwShibai : List Char := "失败".toList

/-- Result of the existing-output check at the head of
`process_single_file` (main.py lines 82–124). -/
inductive SkipOutcome where
  /-- The existing output is kept and the chapter's outcome is `skipped`. -/
  | skipped
  /-- An existing stale output is deleted and processing continues. -/
  | proceedDeleted
  /-- No check applies (file absent, or force-regenerate on); processing
  continues without deleting anything. -/
  | proceed
deriving DecidableEq, Repr

/-- main.py lines 82–124: if the output file exists and force-regenerate is
off, read it; re-process (deleting the stale file) when it has fewer than
300 characters or when its first 100 characters contain `"错误"` or
`"失败"`; otherwise skip the chapter.  `existing` is the decoded text of
the output file, so `len(existing_content)` counts characters. -/
def skipPhase (outputExists force : Bool) (existing : List Char) : SkipOutcome :=
  if outputExists && !force then
    if existing.length < 300 then .proceedDeleted
    else if listContainsSub kwCuowu (existing.take 100)
         || listContainsSub kwShibai (existing.take 100) then .proceedDeleted
    else .skipped
  else .proceed

/-- The skip condition as the claim states it (spec §4.3 step 1), for
comparison with `skipPhase`: output exists AND its size is at least 300
BYTES and the first 100 characters carry no error keyword.  The code
measures characters, not bytes; this definition follows the spec's words. -/
def claimedSkip (outputExists : Bool) (existing : List Char) : Bool :=
  outputExists && decide (300 ≤ utf8Len existing)
    && !(listContainsSub kwCuowu (existing.take 100)
         || listContainsSub kwShibai (existing.take 100))

/-- The stub error file written for a failed chapter (main.py lines
319–331); `ts` is the `time.strftime` timestamp inserted into the text. -/
def stubErrorMsg (allKeysSkipped : Bool) (ts : List Char) : List Char :=
  if allKeysSkipped then
    "# 脱水处理失败\n\n原因: 所有API密钥都因失败次数过多而被跳过\n\n时间: ".toList
      ++ ts ++ "\n\n请检查API密钥或稍后重试。".toList
  else
    "# 脱水处理失败\n\n原因: API处理失败\n\n时间: ".toList
      ++ ts ++ "\n\n请重试或联系管理员。".toList

/-! ## Chunker (`api_service.py`, `condense_novel_gemini` lines 110–178;
`condense_novel_openai` lines 498–566 is line-for-line the same logic) -/

/-- Constant `max_chunk_length = 20000` (api_service.py lines 112 and 500). -/
def maxChunkLength : Nat := 20000

/-- Number of segments: `(content_length + chunk_size - 1) // chunk_size`. -/
def totalChunksOf (n : Nat) : Nat := (n + maxChunkLength - 1) / maxChunkLength

/-- Segment `i`: `content[i*chunk_size : min((i+1)*chunk_size, content_length)]`. -/
def chunkAt (content : List Char) (i : Nat) : List Char :=
  (content.drop (i * maxChunkLength)).take maxChunkLength

/-- The list of segments processed by the chunked path, in index order. -/
def chunksOf (content : List Char) : List (List Char) :=
  (List.range (totalChunksOf content.length)).map (chunkAt content)

/-- The fixed system prompt of `_process_content_with_gemini` /
`_process_content_with_openai` (api_service.py lines 201 and 589). -/
def basePrompt : List Char :=
  "你是一个小说内容压缩工具。请将下面的小说内容精简到原来的30%-50%左右，同时保留所有重要情节、对话和描写，不要遗漏关键情节和人物。不要添加任何解释或总结，直接输出压缩后的内容。".toList

/-- The chunk prefix `f"这是一个小说的第{chunk_index}段，共{total_chunks}段。"`
(api_service.py lines 199 and 587). -/
def chunkPfx (i n : Nat) : List Char :=
  "这是一个小说的第".toList ++ (Nat.repr i).toList
    ++ "段，共".toList ++ (Nat.repr n).toList ++ "段。".toList

/-- One `_process_content_with_*` invocation, as recorded by the model:
the text passed and the `is_chunk` / `chunk_index` / `total_chunks`
arguments. -/
structure ApiCall where
  text : List Char
  isChunk : Bool
  chunkIndex : Nat
  totalChunks : Nat
deriving DecidableEq, Repr

/-- The system prompt built by `_process_content_with_*` for a call:
the chunk prefix (when `is_chunk`) prepended to the fixed prompt. -/
def systemPromptOf (c : ApiCall) : List Char :=
  (if c.isChunk then chunkPfx c.chunkIndex c.totalChunks else []) ++ basePrompt

/-- Environment oracle for `condense_novel_*`: outcomes of the external
interactions.  Each `_process_content_with_*` outcome is an arbitrary
environment response, indexed by chunk number; every concrete behaviour of
the Python code is an instance of some `CondenseEnv`. -/
structure CondenseEnv where
  /-- Whether the initial `key_manager.get_key_config()` returns a key. -/
  keyAcquired : Bool
  /-- Outcome of the single non-chunked `_process_content_with_*` call. -/
  singleResult : Option (List Char)
  /-- Outcome of the first `_process_content_with_*` call for chunk `i`. -/
  firstTry : Nat → Option (List Char)
  /-- Whether `get_key_config()` yields a fresh key after chunk `i` fails. -/
  keyRenew : Nat → Bool
  /-- Outcome of the retried call for chunk `i` (with the fresh key). -/
  retryTry : Nat → Option (List Char)

/-- The per-chunk result after the in-loop retry (api_service.py lines
138–167): the first call's output, or on failure — when a fresh key was
obtained — the retried call's output. -/
def chunkResult (env : CondenseEnv) (i : Nat) : Option (List Char) :=
  match env.firstTry i with
  | some s => some s
  | none => if env.keyRenew i then env.retryTry i else none

/-- The chunked loop of `condense_novel_*` over the remaining chunk
indices, accumulating per-chunk outputs (reversed) and the issued calls
(reversed).  A chunk that still fails after the retry aborts the whole
call with `none`. -/
def chunkLoop (env : CondenseEnv) (content : List Char) (total : Nat) :
    List Nat → List (List Char) → List ApiCall → Option (List Char) × List ApiCall
  | [], acc, calls =>
      (some (List.intercalate "\n\n".toList acc.reverse), calls.reverse)
  | i :: rest, acc, calls =>
      let c : ApiCall := ⟨chunkAt content i, true, i + 1, total⟩
      match env.firstTry i with
      | some s => chunkLoop env content total rest (s :: acc) (c :: calls)
      | none =>
        if env.keyRenew i then
          match env.retryTry i with
          | some s => chunkLoop env content total rest (s :: acc) (c :: c :: calls)
          | none => (none, (c :: c :: calls).reverse)
        else (none, (c :: calls).reverse)

/-- Embeds `condense_novel_gemini` / `condense_novel_openai` with
`api_key_config = None` (the pipeline's calling convention), returning the
result and the list of `_process_content_with_*` calls issued.  Empty or
whitespace-only input returns `""` immediately (lines 51–54 / 439–442);
failed key acquisition returns `None` (lines 94–104 / 482–492); input of
at most 20,000 characters is processed by a single call (lines 115–116 /
503–504); longer input goes through the chunk loop.  Effects on the key
manager (`report_error` / `report_success`) are not observed by the
properties proved here. -/
def condenseRun (env : CondenseEnv) (content : List Char) :
    Option (List Char) × List ApiCall :=
  if pyStripIsEmpty content then (some [], [])
  else if !env.keyAcquired then (none, [])
  else if content.length ≤ maxChunkLength then
    (env.singleResult, [⟨content, false, 0, 0⟩])
  else
    chunkLoop env content (totalChunksOf content.length)
      (List.range (totalChunksOf content.length)) [] []

/-! ## Adapter transport retry loop (`api_service.py`,
`_process_content_with_gemini` lines 305–426; the OpenAI variant lines
623–703 has the same control flow with no `RetryInfo` parsing) -/

/-- The response one HTTP attempt gets, as far as the retry control flow
can distinguish them. -/
inductive HttpResp where
  /-- HTTP 200 with parseable non-empty content: the call returns it. -/
  | ok (text : List Char)
  /-- HTTP 200 but empty or malformed content: falls through to the
  ordinary retry logic. -/
  | okBad
  /-- HTTP 429; `retryDelay = some n` when the error body carries a
  Google-style `RetryInfo.retryDelay` of the form `"<n>s"`. -/
  | err429 (retryDelay : Option Nat)
  /-- Any other non-200 status, a timeout, or a transport exception. -/
  | errFail

/-- Result of one adapter call: the returned text (if any), the number of
HTTP attempts actually made, and the sleeps performed between attempts. -/
structure RetryOut where
  result : Option (List Char)
  attempts : Nat
  sleeps : List Rat
deriving DecidableEq, Repr

/-- Base delay `retry_delay = 5` (api_service.py lines 307 and 625). -/
def retryDelayBase : Rat := 5

/-- The sleep performed in the HTTP-429 branch: `n + 5` seconds when the
error body carried `retryDelay = "<n>s"`, otherwise the default 60 s
(api_service.py lines 371–390). -/
def sleep429 (d : Option Nat) : Rat :=
  match d with
  | some n => (n : Rat) + 5
  | none => 60

/-- The `for retry in range(max_retries)` loop (api_service.py lines
309–423).  The loop variable is reassigned by the `range` iterator at each
iteration, so the `retry -= 1` executed in the final-slot 429 branch (line
393) has no effect on the iteration; the embedding therefore folds over
the iterator values `[0, 1, 2]` unchanged.  `resps att` is the response
the `att`-th HTTP POST receives. -/
def adapterGo (resps : Nat → HttpResp) :
    List Nat → Nat → List Rat → RetryOut
  | [], att, sl => ⟨none, att, sl.reverse⟩
  | r :: rest, att, sl =>
    match resps att with
    | .ok t => ⟨some t, att + 1, sl.reverse⟩
    | .err429 d => adapterGo resps rest (att + 1) (sleep429 d :: sl)
    | _ =>
      if r < 2 then adapterGo resps rest (att + 1) (retryDelayBase * 2 ^ r :: sl)
      else ⟨none, att + 1, sl.reverse⟩

/-- One full `_process_content_with_*` retry loop with `max_retries = 3`. -/
def adapterAttempts (resps : Nat → HttpResp) : RetryOut :=
  adapterGo resps [0, 1, 2] 0 []

/-- An environment in which every HTTP attempt receives HTTP 429 with
`RetryInfo.retryDelay = "58s"`. -/
def all429Resps : Nat → HttpResp := fun _ => .err429 (some 58)

/-! ## Credential pool (`key_manager.py`, `APIKeyManager`) -/

/-- One entry of `self.api_configs` after `__init__` normalisation: the
immutable `key` (opaque string modelled as a `Nat` identity) and `rpm`,
plus the mutable error counters and cooling deadline (lines 37–42). -/
structure KeyCfg where
  key : Nat
  rpm : Nat
  errors : Nat
  cErrors : Nat
  coolingUntil : Rat
deriving DecidableEq, Repr

/-- One entry of the `self.request_timestamps` dict: the key, the deque's
`maxlen`, and the queue of request timestamps (head = oldest). -/
structure QEntry where
  key : Nat
  maxlen : Nat
  q : List Rat
deriving DecidableEq, Repr

/-- The mutable state of an `APIKeyManager`. -/
structure MgrState where
  configs : List KeyCfg
  maxRpm : Nat
  maxKeyRpm : Nat
  reqTs : List QEntry
  globalTs : List Rat
  succRates : List (Nat × Rat)
  nextKeyIndex : Nat
  skippedKeys : List Nat
deriving DecidableEq, Repr

/-- The `__init__` rpm defaulting (lines 38–39): a missing or falsy (`0`) rpm
becomes `config.DEFAULT_KEY_RPM = 5`. -/
def effRpm (r : Option Nat) : Nat :=
  match r with
  | none => 5
  | some 0 => 5
  | some n => n

/-- Embeds `APIKeyManager.__init__` (lines 26–66): raw credentials are pairs of a
key and an optional rpm; error counters start at 0, per-key deques have
`maxlen = max(rpm, 5)` (line 48), success rates start at 1.0 (line 52),
the global deque has `maxlen = max_rpm` (line 55), and
`max_key_rpm = max(rpm over configs)` with default 5 (line 58). -/
def initMgr (raw : List (Nat × Option Nat)) (maxRpm : Nat) : MgrState :=
  let cfgs : List KeyCfg := raw.map (fun p => ⟨p.1, effRpm p.2, 0, 0, 0⟩)
  { configs := cfgs
    maxRpm := maxRpm
    maxKeyRpm := (cfgs.map (·.rpm)).foldr max 5
    reqTs := cfgs.map (fun c => ⟨c.key, max c.rpm 5, []⟩)
    globalTs := []
    succRates := cfgs.map (fun c => (c.key, 1))
    nextKeyIndex := 0
    skippedKeys := [] }

/-- Embeds `_clean_expired_requests` (lines 187–196): pop from the front while the
head is more than 60 seconds old. -/
def cleanExpired (now : Rat) (q : List Rat) : List Rat :=
  q.dropWhile (fun t => decide (60 < now - t))

/-- Appending to a Python `deque` with a `maxlen`: when full, the oldest
element is discarded from the left. -/
def dequeAppend (maxlen : Nat) (q : List Rat) (x : Rat) : List Rat :=
  let q' := q ++ [x]
  if maxlen < q'.length then q'.drop (q'.length - maxlen) else q'

/-- Lookup `self.request_timestamps[k]`, with Python's `dict.get(k, [])` default. -/
def keyQ (d : List QEntry) (k : Nat) : List Rat :=
  ((d.find? (fun e => e.key == k)).map (·.q)).getD []

/-- Length `len(self.request_timestamps.get(key_id, []))` (line 121). -/
def keyQLen (d : List QEntry) (k : Nat) : Nat := (keyQ d k).length

/-- The `maxlen` the deque for key `k` has (or would be given at creation:
`self.max_key_rpm`, line 155). -/
def keyCap (d : List QEntry) (mk : Nat) (k : Nat) : Nat :=
  ((d.find? (fun e => e.key == k)).map (·.maxlen)).getD mk

/-- In-place cleaning of key `k`'s queue in the dict (line 118); a key
absent from the dict is left absent. -/
def qClean (now : Rat) (d : List QEntry) (k : Nat) : List QEntry :=
  d.map (fun e => if e.key == k then { e with q := cleanExpired now e.q } else e)

/-- A credential passes the cooling check (line 109) and the skip check
(line 113). -/
def eligible (now : Rat) (skipped : List Nat) (c : KeyCfg) : Bool :=
  decide (c.coolingUntil ≤ now) && !(skipped.contains c.key)

/-- The per-credential cleaning performed while scanning the pool
(lines 104–118): every credential that passes the cooling and skip checks
has its queue cleaned.  Cleaning is idempotent, so cleaning each eligible
key once, as here, coincides with the source's in-loop cleaning order. -/
def scanClean (now : Rat) (st : MgrState) (d : List QEntry) : List QEntry :=
  st.configs.foldl
    (fun d c => if eligible now st.skippedKeys c then qClean now d c.key else d) d

/-- Lookup `self.success_rates.get(key_id, 0.5)` (line 128). -/
def rGet (rates : List (Nat × Rat)) (k : Nat) : Rat :=
  ((rates.find? (fun p => p.1 == k)).map (·.2)).getD (1 / 2)

/-- Assignment `self.success_rates[key] = v`: update in place, or insert. -/
def rSet (rates : List (Nat × Rat)) (k : Nat) (v : Rat) : List (Nat × Rat) :=
  if rates.any (fun p => p.1 == k) then
    rates.map (fun p => if p.1 == k then (p.1, v) else p)
  else rates ++ [(k, v)]

/-- The selection score (lines 125–134):
`success_rate*0.5 - load_ratio*0.3 + rotation_weight*0.2` where
`load_ratio = key_rpm / max_key_rpm` (0 when `max_key_rpm = 0`) and
`rotation_weight = 1 - ((i - next_key_index) % len(api_configs)) / len`. -/
def scoreOf (st : MgrState) (i : Nat) (c : KeyCfg) (kl : Nat) : Rat :=
  let load : Rat := if 0 < c.rpm then (kl : Rat) / (c.rpm : Rat) else 0
  let sr : Rat := rGet st.succRates c.key
  let n : Int := (st.configs.length : Int)
  let rw : Rat := 1 - ((((i : Int) - (st.nextKeyIndex : Int)) % n : Int) : Rat) / (n : Rat)
  sr * (1 / 2) - load * (3 / 10) + rw * (1 / 5)

/-- One element of `available_keys` (line 136): key, score, config, index. -/
structure AvailEntry where
  key : Nat
  score : Rat
  cfg : KeyCfg
  idx : Nat
deriving DecidableEq, Repr

/-- The `available_keys` scan (lines 104–136) over the configs with their
indices, reading the already-cleaned dict `d`. -/
def availGo (now : Rat) (st : MgrState) (d : List QEntry) :
    List KeyCfg → Nat → List AvailEntry
  | [], _ => []
  | c :: rest, i =>
    (if eligible now st.skippedKeys c && decide (keyQLen d c.key < c.rpm) then
      [⟨c.key, scoreOf st i c (keyQLen d c.key), c, i⟩]
    else []) ++ availGo now st d rest (i + 1)

/-- The `available_keys` list for the whole pool. -/
def availEntries (now : Rat) (st : MgrState) (d : List QEntry) : List AvailEntry :=
  availGo now st d st.configs 0

/-- Python's `max(available_keys, key=lambda x: x[1])` (line 145): the
first entry of maximal score. -/
def selectMax : List AvailEntry → Option AvailEntry
  | [] => none
  | a :: rest => some (rest.foldl (fun best x => if best.score < x.score then x else best) a)

/-- Appending `now` to the winner's queue (lines 153–158): update the
existing deque, or — when the key has no deque — create one with
`maxlen = self.max_key_rpm` holding `now`. -/
def qAppendNow (mk : Nat) (d : List QEntry) (k : Nat) (now : Rat) : List QEntry :=
  if (d.find? (fun e => e.key == k)).isSome then
    d.map (fun e => if e.key == k then { e with q := dequeAppend e.maxlen e.q now } else e)
  else d ++ [⟨k, mk, dequeAppend mk [] now⟩]

/-- One pass of the body of `get_key_config`'s wait loop under the lock
(lines 88–161): clean the global window; block when it is at the global
limit; otherwise scan for available credentials, pick the highest score,
advance the round-robin cursor, and record `now` in the winner's and the
global windows.  Returns the selected config (a copy, line 169) and the
updated state. -/
def tryAcquire (now : Rat) (st : MgrState) : Option KeyCfg × MgrState :=
  if st.maxRpm ≤ (cleanExpired now st.globalTs).length then
    (none, { st with globalTs := cleanExpired now st.globalTs })
  else
    match selectMax (availEntries now st (scanClean now st st.reqTs)) with
    | none =>
      (none, { st with
        globalTs := cleanExpired now st.globalTs
        reqTs := scanClean now st st.reqTs })
    | some a =>
      (some a.cfg,
        { st with
          globalTs := dequeAppend st.maxRpm (cleanExpired now st.globalTs) now
          reqTs := qAppendNow st.maxKeyRpm (scanClean now st st.reqTs) a.key now
          nextKeyIndex := (a.idx + 1) % st.configs.length })

/-- Result of the full `get_key_config` wait loop. -/
structure PollOut where
  result : Option KeyCfg
  st : MgrState
  polls : Nat
  sleeps : List Rat
deriving Repr

/-- The wait loop of `get_key_config` (lines 79–185): at most 60 polls;
each poll runs `tryAcquire` at that poll's wall-clock time; a failed poll
sleeps `min(0.5 * 2**backoff_count, 5)` seconds, and `backoff_count` is
incremented on every third failed poll.  `times` lists the wall-clock
times of the successive polls. -/
def getKeyConfigLoop :
    List Rat → MgrState → Nat → Nat → PollOut
  | [], st, _, _ => ⟨none, st, 0, []⟩
  | now :: rest, st, wa, bc =>
    match tryAcquire now st with
    | (some c, st') => ⟨some c, st', 1, []⟩
    | (none, st') =>
      let waitTime : Rat := min ((1 / 2) * 2 ^ bc) 5
      let wa' := wa + 1
      let bc' := if wa' % 3 = 0 then bc + 1 else bc
      let out := getKeyConfigLoop rest st' wa' bc'
      ⟨out.result, out.st, out.polls + 1, waitTime :: out.sleeps⟩

/-- Embeds `get_key_config` with `max_wait_attempts = 60` (line 80): the wait
loop runs at most 60 polls and then gives up with `None`. -/
def getKeyConfig (times : List Rat) (st : MgrState) : PollOut :=
  getKeyConfigLoop (times.take 60) st 0 0

/-- The sleep schedule of a fully starved `get_key_config` call:
poll `j` (0-based) sleeps `min(0.5 * 2**(j / 3), 5)` seconds. -/
def backoffSched : List Rat :=
  (List.range 60).map (fun j => min ((1 / 2) * 2 ^ (j / 3) : Rat) 5)

/-- Update of the first config matching a key: both `report_success` and
`report_error` scan `self.api_configs` and `break` after mutating the
first config whose key matches (lines 227–230 and 247–269). -/
def updateFirst : List KeyCfg → Nat → (KeyCfg → KeyCfg) → List KeyCfg
  | [], _, _ => []
  | c :: rest, k, f => if c.key == k then f c :: rest else c :: updateFirst rest k f

/-- Embeds `report_success` (lines 212–230). -/
def reportSuccess (k : Nat) (st : MgrState) : MgrState :=
  { st with
    succRates := rSet st.succRates k (rGet st.succRates k * (9 / 10) + 1 / 10)
    configs := updateFirst st.configs k (fun c => { c with cErrors := 0 }) }

/-- Insertion `skipped_keys.add` (a Python set): insert if absent. -/
def skInsert (l : List Nat) (k : Nat) : List Nat :=
  if l.contains k then l else l ++ [k]

/-- The cooling deadline set at line 255–256:
`now + min(30 * 2**(consecutive_errors - 3), 600)`. -/
def coolCalc (now : Rat) (ce : Nat) : Rat := now + min (30 * 2 ^ (ce - 3) : Rat) 600

/-- Embeds `report_error` (lines 232–269): EMA decay by 0.9; the FIRST config
with this key (the loop breaks) gets `errors` and `consecutive_errors`
incremented; when the new `consecutive_errors ≥ 3` the config is cooled
until `now + min(30 * 2**(ce - 3), 600)`; when the new `errors ≥ 20` the
key is added to `skipped_keys`.  When every key ends up skipped the source
only logs a warning (lines 264–268) — there is no pool flag to set.  The
`find?` below locates the same first-matching config the source's loop
mutates. -/
def reportError (now : Rat) (k : Nat) (st : MgrState) : MgrState :=
  let rates' := rSet st.succRates k (rGet st.succRates k * (9 / 10))
  match st.configs.find? (fun c => c.key == k) with
  | none => { st with succRates := rates' }
  | some c =>
    { st with
      succRates := rates'
      configs := updateFirst st.configs k (fun c0 =>
        { c0 with
          errors := c0.errors + 1
          cErrors := c0.cErrors + 1
          coolingUntil :=
            if 3 ≤ c0.cErrors + 1 then coolCalc now (c0.cErrors + 1)
            else c0.coolingUntil })
      skippedKeys :=
        if 20 ≤ c.errors + 1 then skInsert st.skippedKeys k else st.skippedKeys }

/-- Embeds `get_max_concurrency` (lines 271–309): each key's rpm is clamped to
the free-tier limit 15 and summed; a single-key pool divides by 5, a
multi-key pool by 30 (integer truncation); the result is raised to at
least 1 and capped at 10.  (`total_rpm` at line 283 is computed but never
used.) -/
def getMaxConcurrency (cfgs : List KeyCfg) : Nat :=
  if cfgs.isEmpty then 1
  else
    let adjustedRpm := (cfgs.map (fun c => min c.rpm 15)).sum
    let safest := if cfgs.length = 1 then max 1 (adjustedRpm / 5) else max 1 (adjustedRpm / 30)
    min safest 10

/-- The concurrency ceiling as the claim states it (spec §4.1): sum of
per-credential RPMs divided by 5 (single credential) or by 10 with a floor
of half the credential count (multi credential), capped at 10 for small
pools and at 20 for pools of more than 5 credentials, never below 1.
This definition follows the spec's words, for comparison with
`getMaxConcurrency`. -/
def claimedMaxConcurrency (cfgs : List KeyCfg) : Nat :=
  let total := (cfgs.map (·.rpm)).sum
  let base := if cfgs.length = 1 then total / 5 else max (total / 10) (cfgs.length / 2)
  let cap := if 5 < cfgs.length then 20 else 10
  max 1 (min base cap)

/-! ## Event traces over the pool -/

/-- A pool-facing event: one poll of the `get_key_config` wait loop (the
locked section, lines 88–161), or a `report_success` / `report_error`
call, each stamped with its wall-clock time.  (`release_key` only touches
the unused `key_usage` counters and is omitted.) -/
inductive MgrEvent where
  | acquire (now : Rat)
  | repSuccess (now : Rat) (key : Nat)
  | repError (now : Rat) (key : Nat)

/-- The wall-clock time of an event. -/
def evTime : MgrEvent → Rat
  | .acquire n => n
  | .repSuccess n _ => n
  | .repError n _ => n

/-- One event applied to the pool; a successful acquire poll is logged as
`(key, time)`. -/
def stepMgr (e : MgrEvent) (st : MgrState) : MgrState × Option (Nat × Rat) :=
  match e with
  | .acquire now =>
    let r := tryAcquire now st
    (r.2, r.1.map (fun c => (c.key, now)))
  | .repSuccess _ k => (reportSuccess k st, none)
  | .repError now k => (reportError now k st, none)

/-- Run a list of events, collecting the log of successful acquires. -/
def runMgr : MgrState → List MgrEvent → MgrState × List (Nat × Rat)
  | st, [] => (st, [])
  | st, e :: es =>
    let p := stepMgr e st
    let r := runMgr p.1 es
    (r.1, p.2.toList ++ r.2)

/-- The successful-acquire times recorded for key `k` in a log. -/
def keyTimes (k : Nat) (log : List (Nat × Rat)) : List Rat :=
  (log.filter (fun p => p.1 == k)).map (·.2)

/-- How many of the given timestamps fall in the closed 60-second window
`[w, w + 60]`. -/
def countWin (w : Rat) (ts : List Rat) : Nat :=
  ts.countP (fun t => decide (w ≤ t) && decide (t ≤ w + 60))

/-- Event times are nondecreasing, starting no earlier than `n`. -/
def monoFrom (n : Rat) : List Rat → Bool
  | [] => true
  | t :: rest => decide (n ≤ t) && monoFrom t rest

/-! ## Concrete states and environments used by counterexamples and
witnesses -/

/-- An environment whose key manager yields no key and whose calls all
fail; blank-input behaviour must not depend on any of it. -/
def blankEnv : CondenseEnv :=
  ⟨false, none, fun _ => none, fun _ => false, fun _ => none⟩

/-- An environment with a key and successful calls. -/
def unitEnv : CondenseEnv :=
  ⟨true, some ['x'], fun _ => some ['y'], fun _ => true, fun _ => some ['z']⟩

/-- A one-credential pool (key 0, rpm 5) that has seen 2 consecutive
errors, fresh otherwise. -/
def mgrA : MgrState :=
  { configs := [⟨0, 5, 0, 2, 0⟩]
    maxRpm := 20
    maxKeyRpm := 5
    reqTs := [⟨0, 5, []⟩]
    globalTs := []
    succRates := [(0, 1)]
    nextKeyIndex := 0
    skippedKeys := [] }

/-! ## Helper lemmas on character lists -/

theorem isPrefixOf_append_ext (p : List Char) :
    ∀ (x y : List Char), p.isPrefixOf x = true → p.isPrefixOf (x ++ y) = true := by
  induction p with
  | nil => intro x y _; simp [List.isPrefixOf]
  | cons c p ih =>
    intro x y h
    cases x with
    | nil => simp [List.isPrefixOf] at h
    | cons d x =>
      simp only [List.cons_append, List.isPrefixOf] at h ⊢
      simp only [Bool.and_eq_true] at h ⊢
      exact ⟨h.1, ih x y h.2⟩

theorem listContainsSub_intro (needle hay : List Char) (i : Nat)
    (hi : i ≤ hay.length) (h : needle.isPrefixOf (hay.drop i) = true) :
    listContainsSub needle hay = true := by
  unfold listContainsSub
  rw [List.any_eq_true]
  exact ⟨i, List.mem_range.2 (Nat.lt_succ_of_le hi), h⟩

theorem listContainsSub_elim (needle hay : List Char)
    (h : listContainsSub needle hay = true) :
    ∃ i, i ≤ hay.length ∧ needle.isPrefixOf (hay.drop i) = true := by
  unfold listContainsSub at h
  rw [List.any_eq_true] at h
  obtain ⟨i, hi, hp⟩ := h
  exact ⟨i, Nat.lt_succ_iff.1 (List.mem_range.1 hi), hp⟩

theorem listContainsSub_append_left (needle a r : List Char)
    (h : listContainsSub needle a = true) :
    listContainsSub needle (a ++ r) = true := by
  obtain ⟨i, hi, hp⟩ := listContainsSub_elim needle a h
  refine listContainsSub_intro needle (a ++ r) i ?_ ?_
  · simp only [List.length_append]; omega
  · rw [List.drop_append_eq_append_drop]
    exact isPrefixOf_append_ext needle _ _ hp

/-! ## C6 and C7: skip check and failure stub -/

set_option maxRecDepth 40000

theorem skipPhase_tf (cont : List Char) :
    skipPhase true false cont =
      (if cont.length < 300 then .proceedDeleted
       else if listContainsSub kwCuowu (cont.take 100)
            || listContainsSub kwShibai (cont.take 100) then .proceedDeleted
       else .skipped) := rfl

/-- C6 (counterexample): the claim says the skip decision measures the
existing file in BYTES (size ≥ 300 bytes ⇒ skip when no error keywords
appear).  A 150-character file of CJK text is 450 bytes, so the claimed
condition holds, yet the code counts characters (150 < 300), deletes the
file and re-processes.  Input: output file exists, force off, content =
150 × '好'. -/
theorem C6_counterexample :
    utf8Len (List.replicate 150 '好') = 450
    ∧ claimedSkip true (List.replicate 150 '好') = true
    ∧ skipPhase true false (List.replicate 150 '好') ≠ .skipped := by decide

/-- C6 (amended): with force-regenerate off, the outcome is `skipped` iff
the output exists, has at least 300 CHARACTERS, and its first 100
characters contain neither "错误" nor "失败"; in every other case where
the output exists (force off) the stale output is deleted before
processing continues. -/
theorem C6_skip_check (e f : Bool) (cont : List Char) :
    (skipPhase e f cont = .skipped ↔
      (e = true ∧ f = false ∧ 300 ≤ cont.length
        ∧ listContainsSub kwCuowu (cont.take 100) = false
        ∧ listContainsSub kwShibai (cont.take 100) = false))
    ∧ (skipPhase true false cont = .skipped
        ∨ skipPhase true false cont = .proceedDeleted) := by
  have hmain : skipPhase true false cont = .skipped ↔
      (300 ≤ cont.length ∧ listContainsSub kwCuowu (cont.take 100) = false
        ∧ listContainsSub kwShibai (cont.take 100) = false) := by
    rw [skipPhase_tf]
    split_ifs with h1 h2
    · exact iff_of_false (by simp) (by rintro ⟨h300, -, -⟩; omega)
    · refine iff_of_false (by simp) ?_
      rintro ⟨-, hcw, hsb⟩
      rw [hcw, hsb] at h2
      simp at h2
    · rw [Bool.or_eq_true, not_or, Bool.not_eq_true, Bool.not_eq_true] at h2
      exact iff_of_true rfl ⟨by omega, h2.1, h2.2⟩
  refine ⟨?_, ?_⟩
  · cases e with
    | false => cases f <;> simp [skipPhase]
    | true =>
      cases f with
      | true => simp [skipPhase]
      | false => rw [hmain]; simp
  · rw [skipPhase_tf]
    split_ifs <;> simp

/-- C7: whichever failure message is written (all keys skipped, or plain
API failure), the stub starts with "# 脱水处理失败", carries "失败" inside
its first 100 characters, and therefore the next run's skip check deletes
it and re-processes the chapter instead of skipping it — for any timestamp
text. -/
theorem C7_failure_stub (b : Bool) (ts : List Char) :
    ("# 脱水处理失败".toList).isPrefixOf (stubErrorMsg b ts) = true
    ∧ listContainsSub kwShibai ((stubErrorMsg b ts).take 100) = true
    ∧ skipPhase true false (stubErrorMsg b ts) = .proceedDeleted := by
  have hparts : ∀ (pre post : List Char),
      ("# 脱水处理失败".toList).isPrefixOf pre = true →
      listContainsSub kwShibai pre = true →
      pre.length ≤ 100 →
      ("# 脱水处理失败".toList).isPrefixOf (pre ++ (ts ++ post)) = true
      ∧ listContainsSub kwShibai ((pre ++ (ts ++ post)).take 100) = true
      ∧ skipPhase true false (pre ++ (ts ++ post)) = .proceedDeleted := by
    intro pre post hpre hcont hlen
    have htake : (pre ++ (ts ++ post)).take 100
        = pre ++ (ts ++ post).take (100 - pre.length) := by
      rw [List.take_append_eq_append_take, List.take_of_length_le hlen]
    have hc100 : listContainsSub kwShibai ((pre ++ (ts ++ post)).take 100) = true := by
      rw [htake]; exact listContainsSub_append_left _ _ _ hcont
    refine ⟨isPrefixOf_append_ext _ _ _ hpre, hc100, ?_⟩
    rw [skipPhase_tf]
    by_cases hl : (pre ++ (ts ++ post)).length < 300
    · rw [if_pos hl]
    · rw [if_neg hl, if_pos (by rw [Bool.or_eq_true]; exact Or.inr hc100)]
  cases b
  · have h := hparts ("# 脱水处理失败\n\n原因: API处理失败\n\n时间: ".toList)
      ("\n\n请重试或联系管理员。".toList) (by decide) (by decide) (by decide)
    simpa [stubErrorMsg, List.append_assoc] using h
  · have h := hparts
      ("# 脱水处理失败\n\n原因: 所有API密钥都因失败次数过多而被跳过\n\n时间: ".toList)
      ("\n\n请检查API密钥或稍后重试。".toList) (by decide) (by decide) (by decide)
    simpa [stubErrorMsg, List.append_assoc] using h

/-! ## C9: adapter retry loop -/

/-- C9: the code intends (comment at api_service.py lines 391–393, and the
claim) that a final-slot HTTP 429 carrying `retryDelay = "<n>s"` does not
count against the 3-attempt limit, granting one extra attempt.  But
`retry -= 1` cannot affect a `for retry in range(3)` loop — the loop
variable is reassigned from the iterator — so with every attempt answered
by HTTP 429 (`retryDelay = "58s"`), the adapter sleeps 58 + 5 = 63 s after
each of exactly 3 attempts and returns failure; no fourth attempt is ever
made. -/
theorem C9_dead_retry_decrement :
    adapterAttempts all429Resps = ⟨none, 3, [63, 63, 63]⟩ := by
  show (⟨none, 3, [sleep429 (some 58), sleep429 (some 58), sleep429 (some 58)]⟩ : RetryOut)
    = ⟨none, 3, [63, 63, 63]⟩
  simp only [sleep429]
  norm_num

/-! ## C10: blank input short-circuit -/

/-- C10: empty or whitespace-only input makes `condense_novel_gemini` /
`condense_novel_openai` return `""` at once — no key acquisition, no
timestamp recording, no HTTP call (the result is the same for every
environment, including `blankEnv` where no key is even available), and the
empty-string result is distinct from the failure result `none`. -/
theorem C10_blank_input (env : CondenseEnv) (content : List Char)
    (h : pyStripIsEmpty content = true) :
    condenseRun env content = (some [], []) ∧ (condenseRun env content).1 ≠ none := by
  unfold condenseRun
  rw [h]
  simp

/-- Witness for `C10_blank_input` at a whitespace-only input and the
keyless environment. -/
theorem C10_blank_input_witness :
    condenseRun blankEnv ("  ".toList) = (some [], [])
    ∧ (condenseRun blankEnv ("  ".toList)).1 ≠ none :=
  C10_blank_input blankEnv ("  ".toList) (by decide)

/-! ## C5: chunking -/

theorem join_range_take (cs : Nat) (l : List Char) :
    ∀ k : Nat, ((List.range k).map (fun i => (l.drop (i * cs)).take cs)).flatten
      = l.take (k * cs) := by
  intro k
  induction k with
  | zero => simp
  | succ k ih =>
    rw [List.range_succ, List.map_append, List.flatten_append, ih]
    simp only [List.map_cons, List.map_nil, List.flatten_cons, List.flatten_nil,
      List.append_nil]
    rw [← List.take_add]
    congr 1
    ring

theorem len_le_totalChunks_mul (n : Nat) : n ≤ totalChunksOf n * maxChunkLength := by
  unfold totalChunksOf maxChunkLength
  omega

theorem chunksOf_flatten (content : List Char) : (chunksOf content).flatten = content := by
  unfold chunksOf chunkAt
  rw [join_range_take]
  exact List.take_of_length_le (len_le_totalChunks_mul content.length)

theorem chunkLoop_cons_first (env : CondenseEnv) (content : List Char)
    (total i : Nat) (rest : List Nat) (acc : List (List Char))
    (calls : List ApiCall) (s : List Char) (h : env.firstTry i = some s) :
    chunkLoop env content total (i :: rest) acc calls
      = chunkLoop env content total rest (s :: acc)
          (⟨chunkAt content i, true, i + 1, total⟩ :: calls) := by
  simp only [chunkLoop]
  rw [h]

theorem chunkLoop_cons_retry (env : CondenseEnv) (content : List Char)
    (total i : Nat) (rest : List Nat) (acc : List (List Char))
    (calls : List ApiCall) (s : List Char) (h : env.firstTry i = none)
    (hr : env.keyRenew i = true) (h2 : env.retryTry i = some s) :
    chunkLoop env content total (i :: rest) acc calls
      = chunkLoop env content total rest (s :: acc)
          (⟨chunkAt content i, true, i + 1, total⟩
            :: ⟨chunkAt content i, true, i + 1, total⟩ :: calls) := by
  simp only [chunkLoop]
  rw [h, hr, h2]
  rfl

theorem chunkLoop_cons_fail2 (env : CondenseEnv) (content : List Char)
    (total i : Nat) (rest : List Nat) (acc : List (List Char))
    (calls : List ApiCall) (h : env.firstTry i = none)
    (hr : env.keyRenew i = true) (h2 : env.retryTry i = none) :
    chunkLoop env content total (i :: rest) acc calls
      = (none, (⟨chunkAt content i, true, i + 1, total⟩
          :: ⟨chunkAt content i, true, i + 1, total⟩ :: calls).reverse) := by
  simp only [chunkLoop]
  rw [h, hr, h2]
  rfl

theorem chunkLoop_cons_norenew (env : CondenseEnv) (content : List Char)
    (total i : Nat) (rest : List Nat) (acc : List (List Char))
    (calls : List ApiCall) (h : env.firstTry i = none)
    (hr : env.keyRenew i = false) :
    chunkLoop env content total (i :: rest) acc calls
      = (none, (⟨chunkAt content i, true, i + 1, total⟩ :: calls).reverse) := by
  simp only [chunkLoop]
  rw [h, hr]
  rfl

theorem chunkLoop_calls (env : CondenseEnv) (content : List Char) (total : Nat) :
    ∀ (idxs : List Nat) (acc : List (List Char)) (calls : List ApiCall)
      (c : ApiCall), c ∈ (chunkLoop env content total idxs acc calls).2 →
      c ∈ calls ∨ ∃ i ∈ idxs, c = ⟨chunkAt content i, true, i + 1, total⟩ := by
  intro idxs
  induction idxs with
  | nil =>
    intro acc calls c hc
    simp only [chunkLoop, List.mem_reverse] at hc
    exact Or.inl hc
  | cons i rest ih =>
    intro acc calls c hc
    have hmk : ∀ h0 : c = (⟨chunkAt content i, true, i + 1, total⟩ : ApiCall),
        c ∈ calls ∨ ∃ j ∈ i :: rest, c = ⟨chunkAt content j, true, j + 1, total⟩ :=
      fun h0 => Or.inr ⟨i, List.mem_cons_self i rest, h0⟩
    have htail : ∀ j ∈ rest, c = (⟨chunkAt content j, true, j + 1, total⟩ : ApiCall) →
        c ∈ calls ∨ ∃ j ∈ i :: rest, c = ⟨chunkAt content j, true, j + 1, total⟩ :=
      fun j hj h0 => Or.inr ⟨j, List.mem_cons_of_mem i hj, h0⟩
    cases hfirst : env.firstTry i with
    | some s =>
      rw [chunkLoop_cons_first env content total i rest acc calls s hfirst] at hc
      rcases ih _ _ _ hc with h | ⟨j, hj, hcj⟩
      · rcases List.mem_cons.1 h with h | h
        · exact hmk h
        · exact Or.inl h
      · exact htail j hj hcj
    | none =>
      cases hren : env.keyRenew i with
      | true =>
        cases hretry : env.retryTry i with
        | some s =>
          rw [chunkLoop_cons_retry env content total i rest acc calls s
            hfirst hren hretry] at hc
          rcases ih _ _ _ hc with h | ⟨j, hj, hcj⟩
          · rcases List.mem_cons.1 h with h | h
            · exact hmk h
            · rcases List.mem_cons.1 h with h | h
              · exact hmk h
              · exact Or.inl h
          · exact htail j hj hcj
        | none =>
          rw [chunkLoop_cons_fail2 env content total i rest acc calls
            hfirst hren hretry] at hc
          simp only [List.mem_reverse, List.mem_cons] at hc
          rcases hc with h | h | h
          · exact hmk h
          · exact hmk h
          · exact Or.inl h
      | false =>
        rw [chunkLoop_cons_norenew env content total i rest acc calls
          hfirst hren] at hc
        simp only [List.mem_reverse, List.mem_cons] at hc
        rcases hc with h | h
        · exact hmk h
        · exact Or.inl h

theorem chunkLoop_some (env : CondenseEnv) (content : List Char) (total : Nat) :
    ∀ (idxs : List Nat) (acc : List (List Char)) (calls : List ApiCall)
      (s : List Char), (chunkLoop env content total idxs acc calls).1 = some s →
      s = List.intercalate "\n\n".toList
        (acc.reverse ++ idxs.map (fun i => (chunkResult env i).getD [])) := by
  intro idxs
  induction idxs with
  | nil =>
    intro acc calls s hs
    simp only [chunkLoop, Option.some.injEq] at hs
    simp [← hs]
  | cons i rest ih =>
    intro acc calls s hs
    cases hfirst : env.firstTry i with
    | some v =>
      rw [chunkLoop_cons_first env content total i rest acc calls v hfirst] at hs
      have h := ih _ _ _ hs
      rw [h]
      simp [chunkResult, hfirst, List.append_assoc]
    | none =>
      cases hren : env.keyRenew i with
      | true =>
        cases hretry : env.retryTry i with
        | some v =>
          rw [chunkLoop_cons_retry env content total i rest acc calls v
            hfirst hren hretry] at hs
          have h := ih _ _ _ hs
          rw [h]
          simp [chunkResult, hfirst, hren, hretry, List.append_assoc]
        | none =>
          rw [chunkLoop_cons_fail2 env content total i rest acc calls
            hfirst hren hretry] at hs
          simp at hs
      | false =>
        rw [chunkLoop_cons_norenew env content total i rest acc calls
          hfirst hren] at hs
        simp at hs

/-- C5 (counterexample): the claim's "for every input text: if its length
is at most 20,000 characters, condense issues exactly one call" fails on a
whitespace-only input — the blank-input guard returns `""` before any call
is issued, so zero calls are made. -/
theorem C5_counterexample :
    pyStripIsEmpty [' '] = true
    ∧ ([' '] : List Char).length ≤ maxChunkLength
    ∧ (condenseRun blankEnv [' ']).2.length = 0 := by decide

/-- C5 (amended): for input that is not whitespace-only and with a
credential acquired: at most 20,000 characters means exactly one
non-chunked call; above that, the input is cut into
`ceil(len / 20000)` consecutive fixed-size segments whose concatenation is
the input, every issued call is some chunk `i` (text = segment `i`,
`chunk_index = i + 1` of `total_chunks`, chunk prefix prepended to the
system prompt), and a successful result equals the per-chunk outputs
joined with "\n\n" in segment order. -/
theorem C5_chunking (env : CondenseEnv) (content : List Char)
    (h1 : pyStripIsEmpty content = false) (h2 : env.keyAcquired = true) :
    (content.length ≤ maxChunkLength →
      condenseRun env content = (env.singleResult, [⟨content, false, 0, 0⟩]))
    ∧ (maxChunkLength < content.length →
      (chunksOf content).length = (content.length + 20000 - 1) / 20000
      ∧ (chunksOf content).flatten = content
      ∧ (∀ c ∈ (condenseRun env content).2,
          (∃ i, i < totalChunksOf content.length
            ∧ c = ⟨chunkAt content i, true, i + 1, totalChunksOf content.length⟩)
          ∧ systemPromptOf c = chunkPfx c.chunkIndex c.totalChunks ++ basePrompt)
      ∧ (∀ s, (condenseRun env content).1 = some s →
          s = List.intercalate "\n\n".toList
            ((List.range (totalChunksOf content.length)).map
              (fun i => (chunkResult env i).getD [])))) := by
  have hrun : condenseRun env content
      = (if content.length ≤ maxChunkLength then
          (env.singleResult, [⟨content, false, 0, 0⟩])
        else chunkLoop env content (totalChunksOf content.length)
          (List.range (totalChunksOf content.length)) [] []) := by
    unfold condenseRun
    rw [h1, h2]
    rfl
  constructor
  · intro hle
    rw [hrun, if_pos hle]
  · intro hgt
    have hnle : ¬ content.length ≤ maxChunkLength := by omega
    rw [hrun, if_neg hnle]
    refine ⟨by simp [chunksOf, totalChunksOf, maxChunkLength], chunksOf_flatten content, ?_, ?_⟩
    · intro c hc
      rcases chunkLoop_calls env content (totalChunksOf content.length) _ _ _ c hc with
        h | ⟨i, hi, hci⟩
      · simp at h
      · refine ⟨⟨i, List.mem_range.1 hi, hci⟩, ?_⟩
        rw [hci]
        simp [systemPromptOf]
    · intro s hs
      have h := chunkLoop_some env content (totalChunksOf content.length) _ _ _ s hs
      simpa using h

/-- Witness for `C5_chunking`: a 3-character input with a key available is
processed by exactly one non-chunked call. -/
theorem C5_chunking_witness :
    condenseRun unitEnv "abc".toList = (unitEnv.singleResult, [⟨"abc".toList, false, 0, 0⟩]) :=
  (C5_chunking unitEnv "abc".toList (by decide) rfl).1 (by decide)

/-! ## C4: concurrency ceiling -/

/-- C4 (counterexample): for a pool of two credentials with rpm 10 each,
the claim's formula (sum / 10, at least half the pool size, cap by pool
size) yields 2, but the code divides the 15-clamped sum by 30 and yields
1. -/
theorem C4_counterexample :
    getMaxConcurrency [⟨0, 10, 0, 0, 0⟩, ⟨1, 10, 0, 0, 0⟩] = 1
    ∧ claimedMaxConcurrency [⟨0, 10, 0, 0, 0⟩, ⟨1, 10, 0, 0, 0⟩] = 2 := by decide

/-- C4 (amended): `get_max_concurrency` equals
`min(10, max(1, (Σ min(rpm, 15)) / K))` with `K = 5` for a single-credential
pool and `K = 30` for a multi-credential pool (and 1 for an empty pool);
it is always at least 1 and never exceeds 10 — there is no 20 cap for
pools of more than 5 credentials and no half-pool-size floor. -/
theorem C4_concurrency (cfgs : List KeyCfg) :
    getMaxConcurrency cfgs
      = (if cfgs.isEmpty then 1
        else min (max 1 ((cfgs.map (fun c => min c.rpm 15)).sum
            / (if cfgs.length = 1 then 5 else 30))) 10)
    ∧ 1 ≤ getMaxConcurrency cfgs ∧ getMaxConcurrency cfgs ≤ 10 := by
  unfold getMaxConcurrency
  refine ⟨?_, ?_, ?_⟩ <;> split_ifs <;> simp_all

/-! ## C3: error policy -/

theorem find?_updateFirst (k : Nat) (f : KeyCfg → KeyCfg)
    (hf : ∀ x, (f x).key = x.key) :
    ∀ l : List KeyCfg,
      (updateFirst l k f).find? (fun x => x.key == k)
        = (l.find? (fun x => x.key == k)).map f := by
  intro l
  induction l with
  | nil => simp [updateFirst]
  | cons c rest ih =>
    by_cases hc : (c.key == k) = true
    · have hfc : ((f c).key == k) = true := by rw [hf c]; exact hc
      rw [updateFirst, if_pos hc]
      simp [List.find?, hfc, hc]
    · have hc' : (c.key == k) = false := by simpa using hc
      rw [updateFirst, if_neg hc]
      simp [List.find?, hc', ih]

theorem contains_skInsert (l : List Nat) (k : Nat) :
    (skInsert l k).contains k = true := by
  unfold skInsert
  split_ifs with h
  · exact h
  · simp

/-- C3 (counterexample): a general error reported for a credential whose
consecutive-error count was 2 raises the count to 3 — below the claimed
threshold of 5 — yet the code already cools it: `cooling_until` becomes
`0 + min(30·2^0, 600) = 30`, not the unchanged 0 the claim requires.  The
code's threshold is 3 and its cap is 600 s, not 5 and 1800 s. -/
theorem C3_counterexample :
    ((reportError 0 0 mgrA).configs.find? (fun c => c.key == 0)).map
        (fun c => (c.cErrors, c.coolingUntil))
      = some (3, 30) := by
  unfold reportError mgrA
  norm_num [List.find?, updateFirst, coolCalc, min_def]

/-- C3 (amended): `report_error` (which receives no error kind — all
errors are treated alike) increments the first matching credential's total
and consecutive error counts; it cools the credential whenever the updated
consecutive count is at least 3, until `now + min(30·2^(ce−3), 600)`
seconds; and the key joins the skipped set exactly when the updated total
error count reaches 20 (the all-skipped condition is only logged — there
is no session-fatal flag; `get_key_config` then returns `None`). -/
theorem C3_report_error (now : Rat) (k : Nat) (st : MgrState) (c : KeyCfg)
    (hfind : st.configs.find? (fun x => x.key == k) = some c) :
    ((reportError now k st).configs.find? (fun x => x.key == k)
      = some { c with
          errors := c.errors + 1
          cErrors := c.cErrors + 1
          coolingUntil :=
            if 3 ≤ c.cErrors + 1 then now + min (30 * 2 ^ (c.cErrors + 1 - 3)) 600
            else c.coolingUntil })
    ∧ ((reportError now k st).skippedKeys.contains k
        = (st.skippedKeys.contains k || decide (20 ≤ c.errors + 1))) := by
  unfold reportError
  rw [hfind]
  constructor
  · simp only []
    have h := find?_updateFirst k
      (fun c0 => { c0 with
        errors := c0.errors + 1
        cErrors := c0.cErrors + 1
        coolingUntil :=
          if 3 ≤ c0.cErrors + 1 then coolCalc now (c0.cErrors + 1)
          else c0.coolingUntil })
      (fun _ => rfl) st.configs
    rw [h, hfind]
    simp [coolCalc]
  · simp only []
    split_ifs with h
    · rw [contains_skInsert]
      simp [h]
    · simp [h]

/-- Witness for `C3_report_error` on the concrete pool `mgrA` (one
credential, 2 consecutive errors, no cooling). -/
theorem C3_report_error_witness :
    ((reportError 0 0 mgrA).configs.find? (fun x => x.key == 0)
        = some ⟨0, 5, 1, 3, 30⟩)
    ∧ ((reportError 0 0 mgrA).skippedKeys.contains 0
        = (mgrA.skippedKeys.contains 0 || decide (20 ≤ 0 + 1))) := by
  have h := C3_report_error 0 0 mgrA ⟨0, 5, 0, 2, 0⟩ (by decide)
  refine ⟨?_, h.2⟩
  rw [h.1]
  norm_num [min_def]

/-! ## Queue lemmas for the rate-window invariant -/

theorem cleanExpired_nil (now : Rat) : cleanExpired now [] = [] := rfl

theorem cleanExpired_sub (now : Rat) (q : List Rat) :
    ∃ dr, q = dr ++ cleanExpired now q ∧ ∀ t ∈ dr, 60 < now - t := by
  refine ⟨q.takeWhile (fun t => decide (60 < now - t)), ?_, ?_⟩
  · rw [cleanExpired, List.takeWhile_append_dropWhile]
  · intro t ht
    simpa using List.mem_takeWhile_imp ht

theorem dropWhile_idem {p : Rat → Bool} (l : List Rat) :
    (l.dropWhile p).dropWhile p = l.dropWhile p := by
  induction l with
  | nil => rfl
  | cons a l ih =>
    by_cases h : p a = true
    · simp [List.dropWhile_cons, h, ih]
    · simp [List.dropWhile_cons, h]

theorem cleanExpired_idem (now : Rat) (q : List Rat) :
    cleanExpired now (cleanExpired now q) = cleanExpired now q :=
  dropWhile_idem q

theorem cleanExpired_suffix (now : Rat) (q : List Rat) :
    cleanExpired now q <:+ q :=
  List.dropWhile_suffix _

theorem dequeAppend_of_lt (m : Nat) (q : List Rat) (x : Rat)
    (h : q.length < m) : dequeAppend m q x = q ++ [x] := by
  unfold dequeAppend
  rw [if_neg]
  simp only [List.length_append, List.length_cons, List.length_nil]
  omega

theorem keyQ_nil (k : Nat) : keyQ [] k = [] := rfl

theorem keyQ_qClean_self (now : Rat) (d : List QEntry) (k : Nat) :
    keyQ (qClean now d k) k = cleanExpired now (keyQ d k) := by
  induction d with
  | nil => simp [qClean, keyQ, cleanExpired]
  | cons e rest ih =>
    by_cases he : (e.key == k) = true
    · simp [qClean, keyQ, List.find?, he]
    · have he' : (e.key == k) = false := by simpa using he
      simp only [qClean, List.map_cons, if_neg he]
      simp only [keyQ, List.find?, he']
      exact ih

theorem keyQ_qClean_ne (now : Rat) (d : List QEntry) (k k' : Nat)
    (h : (k' == k) = false) :
    keyQ (qClean now d k) k' = keyQ d k' := by
  induction d with
  | nil => rfl
  | cons e rest ih =>
    by_cases he : (e.key == k) = true
    · have hek : e.key = k := by simpa using he
      have hne : k ≠ k' := by
        intro hkk
        rw [hkk] at h
        simp at h
      have he2 : (e.key == k') = false := by
        rw [hek]
        simpa using hne
      simp only [qClean, List.map_cons, if_pos he]
      simp only [keyQ, List.find?, he2]
      exact ih
    · simp only [qClean, List.map_cons, if_neg he]
      by_cases he2 : (e.key == k') = true
      · simp [keyQ, List.find?, he2]
      · have he2' : (e.key == k') = false := by simpa using he2
        simp only [keyQ, List.find?, he2']
        exact ih

theorem keyCap_qClean (now : Rat) (d : List QEntry) (mk k k' : Nat) :
    keyCap (qClean now d k) mk k' = keyCap d mk k' := by
  induction d with
  | nil => rfl
  | cons e rest ih =>
    by_cases he : (e.key == k) = true
    · by_cases he2 : (e.key == k') = true
      · simp [qClean, keyCap, List.find?, he, he2]
      · have he2' : (e.key == k') = false := by simpa using he2
        simp only [qClean, List.map_cons, if_pos he]
        simp only [keyCap, List.find?, he2']
        exact ih
    · simp only [qClean, List.map_cons, if_neg he]
      by_cases he2 : (e.key == k') = true
      · simp [keyCap, List.find?, he2]
      · have he2' : (e.key == k') = false := by simpa using he2
        simp only [keyCap, List.find?, he2']
        exact ih

theorem keyQ_cons_pos (e : QEntry) (rest : List QEntry) (k : Nat)
    (he : (e.key == k) = true) : keyQ (e :: rest) k = e.q := by
  simp [keyQ, List.find?, he]

theorem keyQ_cons_neg (e : QEntry) (rest : List QEntry) (k : Nat)
    (he : (e.key == k) = false) : keyQ (e :: rest) k = keyQ rest k := by
  simp [keyQ, List.find?, he]

theorem keyCap_cons_pos (e : QEntry) (rest : List QEntry) (mk k : Nat)
    (he : (e.key == k) = true) : keyCap (e :: rest) mk k = e.maxlen := by
  simp [keyCap, List.find?, he]

theorem keyCap_cons_neg (e : QEntry) (rest : List QEntry) (mk k : Nat)
    (he : (e.key == k) = false) : keyCap (e :: rest) mk k = keyCap rest mk k := by
  simp [keyCap, List.find?, he]

theorem qAppendNow_cons_ne (mk : Nat) (e : QEntry) (rest : List QEntry)
    (k : Nat) (now : Rat) (he : (e.key == k) = false) :
    qAppendNow mk (e :: rest) k now = e :: qAppendNow mk rest k now := by
  unfold qAppendNow
  have hfc : (List.find? (fun e0 => e0.key == k) (e :: rest))
      = rest.find? (fun e0 => e0.key == k) := by
    simp [List.find?, he]
  rw [hfc]
  by_cases hrest : (rest.find? (fun e0 => e0.key == k)).isSome = true
  · rw [if_pos hrest, if_pos hrest, List.map_cons,
      if_neg (show ¬((e.key == k) = true) by simp [he])]
  · rw [if_neg hrest, if_neg hrest]
    simp

theorem keyQ_qAppendNow_self (mk : Nat) (d : List QEntry) (k : Nat) (now : Rat)
    (hlen : (keyQ d k).length < keyCap d mk k) :
    keyQ (qAppendNow mk d k now) k = keyQ d k ++ [now] := by
  induction d with
  | nil =>
    have hmk : 0 < mk := by simpa [keyQ, keyCap] using hlen
    simp only [qAppendNow, List.find?_nil, Option.isSome_none, Bool.false_eq_true,
      if_neg, List.nil_append, ite_false]
    rw [keyQ_cons_pos _ _ _ (by simp), dequeAppend_of_lt mk [] now (by simpa using hmk)]
    simp [keyQ]
  | cons e rest ih =>
    by_cases he : (e.key == k) = true
    · have hfind : (List.find? (fun e0 => e0.key == k) (e :: rest)) = some e := by
        simp [List.find?, he]
      unfold qAppendNow
      rw [if_pos (by rw [hfind]; rfl), List.map_cons, if_pos he]
      rw [keyQ_cons_pos _ _ _ (show ((({ e with q := dequeAppend e.maxlen e.q now })).key == k) = true from he)]
      rw [keyQ_cons_pos _ _ _ he] at hlen ⊢
      rw [keyCap_cons_pos _ _ _ _ he] at hlen
      exact dequeAppend_of_lt _ _ _ hlen
    · have he' : (e.key == k) = false := by simpa using he
      rw [keyQ_cons_neg _ _ _ he', keyCap_cons_neg _ _ _ _ he'] at hlen
      rw [qAppendNow_cons_ne _ _ _ _ _ he', keyQ_cons_neg _ _ _ he',
        keyQ_cons_neg _ _ _ he']
      exact ih hlen

theorem keyQ_map_update_ne (d : List QEntry) (k k' : Nat)
    (g : QEntry → QEntry) (hg : ∀ e, (g e).key = e.key)
    (h : (k' == k) = false) :
    keyQ (d.map (fun e => if e.key == k then g e else e)) k' = keyQ d k' := by
  have hkk' : (k == k') = false := by
    have h2 : k' ≠ k := by simpa using h
    simpa using Ne.symm h2
  induction d with
  | nil => rfl
  | cons e rest ih =>
    simp only [List.map_cons]
    by_cases he : (e.key == k) = true
    · have hek : e.key = k := by simpa using he
      rw [if_pos he]
      rw [keyQ_cons_neg _ _ _ (by rw [hg e, hek]; exact hkk')]
      rw [keyQ_cons_neg _ _ _ (by rw [hek]; exact hkk')]
      exact ih
    · rw [if_neg he]
      by_cases he2 : (e.key == k') = true
      · rw [keyQ_cons_pos _ _ _ he2, keyQ_cons_pos _ _ _ he2]
      · have he2' : (e.key == k') = false := by simpa using he2
        rw [keyQ_cons_neg _ _ _ he2', keyQ_cons_neg _ _ _ he2']
        exact ih

theorem keyQ_append_single_ne (d : List QEntry) (e0 : QEntry) (k' : Nat)
    (he0 : (e0.key == k') = false) :
    keyQ (d ++ [e0]) k' = keyQ d k' := by
  induction d with
  | nil =>
    simp only [List.nil_append]
    rw [keyQ_cons_neg _ _ _ he0]
  | cons e rest ih =>
    by_cases he : (e.key == k') = true
    · rw [List.cons_append, keyQ_cons_pos _ _ _ he, keyQ_cons_pos _ _ _ he]
    · have he' : (e.key == k') = false := by simpa using he
      rw [List.cons_append, keyQ_cons_neg _ _ _ he', keyQ_cons_neg _ _ _ he']
      exact ih

theorem keyQ_qAppendNow_ne (mk : Nat) (d : List QEntry) (k k' : Nat) (now : Rat)
    (h : (k' == k) = false) :
    keyQ (qAppendNow mk d k now) k' = keyQ d k' := by
  have hkk' : (k == k') = false := by
    have h2 : k' ≠ k := by simpa using h
    simpa using Ne.symm h2
  unfold qAppendNow
  split_ifs with hs
  · exact keyQ_map_update_ne d k k' _ (fun e => rfl) h
  · exact keyQ_append_single_ne d _ k' hkk'

theorem keyCap_map_update (d : List QEntry) (mk k k' : Nat)
    (g : QEntry → QEntry) (hg : ∀ e, (g e).key = e.key ∧ (g e).maxlen = e.maxlen) :
    keyCap (d.map (fun e => if e.key == k then g e else e)) mk k' = keyCap d mk k' := by
  induction d with
  | nil => rfl
  | cons e rest ih =>
    simp only [List.map_cons]
    by_cases he : (e.key == k) = true
    · rw [if_pos he]
      by_cases he2 : (e.key == k') = true
      · rw [keyCap_cons_pos _ _ _ _ (by rw [(hg e).1]; exact he2),
          keyCap_cons_pos _ _ _ _ he2, (hg e).2]
      · have he2' : (e.key == k') = false := by simpa using he2
        rw [keyCap_cons_neg _ _ _ _ (by rw [(hg e).1]; exact he2'),
          keyCap_cons_neg _ _ _ _ he2']
        exact ih
    · rw [if_neg he]
      by_cases he2 : (e.key == k') = true
      · rw [keyCap_cons_pos _ _ _ _ he2, keyCap_cons_pos _ _ _ _ he2]
      · have he2' : (e.key == k') = false := by simpa using he2
        rw [keyCap_cons_neg _ _ _ _ he2', keyCap_cons_neg _ _ _ _ he2']
        exact ih

theorem keyCap_append_single (d : List QEntry) (mk k' kk : Nat) (q0 : List Rat) :
    keyCap (d ++ [⟨kk, mk, q0⟩]) mk k' = keyCap d mk k' := by
  induction d with
  | nil =>
    simp only [List.nil_append]
    by_cases hk : (kk == k') = true
    · rw [keyCap_cons_pos _ _ _ _ hk]
      rfl
    · rw [keyCap_cons_neg _ _ _ _ (by simpa using hk)]
  | cons e rest ih =>
    by_cases he : (e.key == k') = true
    · rw [List.cons_append, keyCap_cons_pos _ _ _ _ he, keyCap_cons_pos _ _ _ _ he]
    · have he' : (e.key == k') = false := by simpa using he
      rw [List.cons_append, keyCap_cons_neg _ _ _ _ he', keyCap_cons_neg _ _ _ _ he']
      exact ih

theorem keyCap_qAppendNow (mk : Nat) (d : List QEntry) (k k' : Nat) (now : Rat) :
    keyCap (qAppendNow mk d k now) mk k' = keyCap d mk k' := by
  unfold qAppendNow
  split_ifs with hs
  · exact keyCap_map_update d mk k k' _ (fun e => ⟨rfl, rfl⟩)
  · exact keyCap_append_single d mk k' k _

/-! ## Scan-clean, availability and selection lemmas -/

theorem foldClean_keyQ (now : Rat) (sk : List Nat) :
    ∀ (cs : List KeyCfg) (d : List QEntry) (k : Nat),
      keyQ (cs.foldl (fun d c => if eligible now sk c then qClean now d c.key else d) d) k
          = keyQ d k
      ∨ keyQ (cs.foldl (fun d c => if eligible now sk c then qClean now d c.key else d) d) k
          = cleanExpired now (keyQ d k) := by
  intro cs
  induction cs with
  | nil => intro d k; exact Or.inl rfl
  | cons c cs ih =>
    intro d k
    rw [List.foldl_cons]
    have hd1 : keyQ (if eligible now sk c then qClean now d c.key else d) k = keyQ d k
        ∨ keyQ (if eligible now sk c then qClean now d c.key else d) k
            = cleanExpired now (keyQ d k) := by
      split_ifs with helig
      · by_cases hkey : (k == c.key) = false
        · exact Or.inl (keyQ_qClean_ne now d c.key k hkey)
        · have hk : k = c.key := by
            have : (k == c.key) = true := by
              cases h2 : (k == c.key)
              · exact absurd h2 hkey
              · rfl
            simpa using this
          subst hk
          exact Or.inr (keyQ_qClean_self now d c.key)
      · exact Or.inl rfl
    rcases ih (if eligible now sk c then qClean now d c.key else d) k with h | h <;>
      rcases hd1 with h1 | h1
    · exact Or.inl (h.trans h1)
    · exact Or.inr (h.trans h1)
    · exact Or.inr (by rw [h, h1])
    · exact Or.inr (by rw [h, h1, cleanExpired_idem])

theorem foldClean_keyQ_elig (now : Rat) (sk : List Nat) :
    ∀ (cs : List KeyCfg) (d : List QEntry) (k : Nat),
      (∃ c ∈ cs, c.key = k ∧ eligible now sk c = true) →
      keyQ (cs.foldl (fun d c => if eligible now sk c then qClean now d c.key else d) d) k
        = cleanExpired now (keyQ d k) := by
  intro cs
  induction cs with
  | nil =>
    intro d k hex
    obtain ⟨c, hc, -⟩ := hex
    exact absurd hc (List.not_mem_nil c)
  | cons c cs ih =>
    intro d k hex
    rw [List.foldl_cons]
    obtain ⟨c0, hc0, hc0k, hc0e⟩ := hex
    rcases List.mem_cons.1 hc0 with hc0c | hc0cs
    · subst hc0c
      rw [if_pos hc0e]
      subst hc0k
      rcases foldClean_keyQ now sk cs (qClean now d c0.key) c0.key with h | h
      · rw [h, keyQ_qClean_self]
      · rw [h, keyQ_qClean_self, cleanExpired_idem]
    · have h1 := ih (if eligible now sk c then qClean now d c.key else d) k
        ⟨c0, hc0cs, hc0k, hc0e⟩
      rw [h1]
      split_ifs with helig
      · by_cases hkey : (k == c.key) = false
        · rw [keyQ_qClean_ne now d c.key k hkey]
        · have hk : k = c.key := by
            have : (k == c.key) = true := by
              cases h2 : (k == c.key)
              · exact absurd h2 hkey
              · rfl
            simpa using this
          subst hk
          rw [keyQ_qClean_self, cleanExpired_idem]
      · rfl

theorem foldClean_keyCap (now : Rat) (sk : List Nat) (mk : Nat) :
    ∀ (cs : List KeyCfg) (d : List QEntry) (k : Nat),
      keyCap (cs.foldl (fun d c => if eligible now sk c then qClean now d c.key else d) d) mk k
        = keyCap d mk k := by
  intro cs
  induction cs with
  | nil => intro d k; rfl
  | cons c cs ih =>
    intro d k
    rw [List.foldl_cons]
    rw [ih]
    split_ifs with helig
    · exact keyCap_qClean now d mk c.key k
    · rfl

theorem scanClean_eq_fold (now : Rat) (st : MgrState) (d : List QEntry) :
    scanClean now st d = st.configs.foldl
      (fun d c => if eligible now st.skippedKeys c then qClean now d c.key else d) d := rfl

theorem availGo_mem (now : Rat) (st : MgrState) (d : List QEntry) :
    ∀ (cs : List KeyCfg) (i0 : Nat) (a : AvailEntry),
      a ∈ availGo now st d cs i0 →
      ∃ c ∈ cs, a.cfg = c ∧ a.key = c.key
        ∧ eligible now st.skippedKeys c = true ∧ keyQLen d c.key < c.rpm := by
  intro cs
  induction cs with
  | nil =>
    intro i0 a ha
    simp [availGo] at ha
  | cons c cs ih =>
    intro i0 a ha
    rw [availGo] at ha
    rcases List.mem_append.1 ha with h | h
    · split_ifs at h with hc
      · simp only [List.mem_singleton] at h
        rw [Bool.and_eq_true, decide_eq_true_eq] at hc
        exact ⟨c, List.mem_cons_self c cs, by rw [h], by rw [h], hc.1, hc.2⟩
      · simp at h
    · obtain ⟨c0, hmem, h1, h2, h3, h4⟩ := ih (i0 + 1) a h
      exact ⟨c0, List.mem_cons_of_mem c hmem, h1, h2, h3, h4⟩

theorem foldl_pick_mem :
    ∀ (rest : List AvailEntry) (a : AvailEntry),
      rest.foldl (fun best x => if best.score < x.score then x else best) a ∈ a :: rest := by
  intro rest
  induction rest with
  | nil => intro a; simp
  | cons x rest ih =>
    intro a
    rw [List.foldl_cons]
    have h := ih (if a.score < x.score then x else a)
    rcases List.mem_cons.1 h with h | h
    · by_cases hs : a.score < x.score
      · rw [if_pos hs] at h ⊢
        rw [h]
        exact List.mem_cons_of_mem a (List.mem_cons_self x rest)
      · rw [if_neg hs] at h ⊢
        rw [h]
        exact List.mem_cons_self a (x :: rest)
    · exact List.mem_cons_of_mem a (List.mem_cons_of_mem x h)

theorem selectMax_mem (l : List AvailEntry) (a : AvailEntry)
    (h : selectMax l = some a) : a ∈ l := by
  cases l with
  | nil => simp [selectMax] at h
  | cons b rest =>
    simp only [selectMax, Option.some.injEq] at h
    exact h ▸ foldl_pick_mem rest b

/-! ## Window-count lemmas -/

theorem countWin_append (w : Rat) (l1 l2 : List Rat) :
    countWin w (l1 ++ l2) = countWin w l1 + countWin w l2 :=
  List.countP_append _ l1 l2

theorem countWin_le_length (w : Rat) (l : List Rat) : countWin w l ≤ l.length :=
  List.countP_le_length _

theorem countWin_zero_of (w now : Rat) (l : List Rat)
    (hwin : w ≤ now ∧ now ≤ w + 60) (h : ∀ t ∈ l, 60 < now - t) :
    countWin w l = 0 := by
  rw [countWin, List.countP_eq_zero]
  intro t ht
  simp only [Bool.and_eq_true, decide_eq_true_eq, not_and]
  intro hwt
  exfalso
  have h1 := h t ht
  have h2 := hwin.1
  have h3 := hwin.2
  linarith

theorem countWin_append_le (times dr q : List Rat) (n now w : Rat) (limit : Nat)
    (hd : times = dr ++ q) (hdrop : ∀ t ∈ dr, 60 < n - t) (hn : n ≤ now)
    (hcnt : countWin w times ≤ limit)
    (hlen : (cleanExpired now q).length < limit) :
    countWin w (times ++ [now]) ≤ limit := by
  by_cases hwin : w ≤ now ∧ now ≤ w + 60
  · obtain ⟨dr2, hq, hdrop2⟩ := cleanExpired_sub now q
    have hdr0 : countWin w dr = 0 :=
      countWin_zero_of w now dr hwin (fun t ht => by have := hdrop t ht; linarith)
    have hdr2 : countWin w dr2 = 0 := countWin_zero_of w now dr2 hwin hdrop2
    have h1 : countWin w (cleanExpired now q) ≤ (cleanExpired now q).length :=
      countWin_le_length _ _
    have h2 : countWin w [now] ≤ 1 := countWin_le_length _ _
    rw [countWin_append, hd, countWin_append, hdr0, hq, countWin_append, hdr2]
    omega
  · rw [countWin_append]
    have h0 : countWin w [now] = 0 := by
      rw [countWin, List.countP_eq_zero]
      intro t ht
      simp only [List.mem_singleton] at ht
      subst ht
      simp only [Bool.and_eq_true, decide_eq_true_eq, not_and]
      intro h1
      exact (not_and.1 hwin) h1
    omega

/-! ## The rolling-window invariant -/

theorem keyTimes_append (k : Nat) (l1 l2 : List (Nat × Rat)) :
    keyTimes k (l1 ++ l2) = keyTimes k l1 ++ keyTimes k l2 := by
  simp [keyTimes, List.filter_append]

theorem keyTimes_single_pos (k k' : Nat) (t : Rat) (h : (k' == k) = true) :
    keyTimes k [(k', t)] = [t] := by
  simp [keyTimes, List.filter, h]

theorem keyTimes_single_neg (k k' : Nat) (t : Rat) (h : (k' == k) = false) :
    keyTimes k [(k', t)] = [] := by
  simp [keyTimes, List.filter, h]

/-- Invariant carried along every run of pool events: the per-credential
identities (`krs`) and the global limit are those fixed at construction;
each credential's queue is the log of its successful acquires minus a
prefix of entries more than 60 s stale; the global queue likewise; queue
capacities dominate the rpm limits; and — the claim's property — every
closed 60-second window holds at most `rpm` acquires per credential and at
most `maxRpm` acquires in total. -/
structure WinInv (krs : List (Nat × Nat)) (mrpm : Nat) (st : MgrState)
    (log : List (Nat × Rat)) (n : Rat) : Prop where
  hkr : st.configs.map (fun c => (c.key, c.rpm)) = krs
  hmax : st.maxRpm = mrpm
  hnodup : (st.configs.map (·.key)).Nodup
  hle : ∀ p ∈ log, p.2 ≤ n
  hkey : ∀ c ∈ st.configs, ∃ dr, keyTimes c.key log = dr ++ keyQ st.reqTs c.key
          ∧ ∀ t ∈ dr, 60 < n - t
  hglob : ∃ dr, log.map (·.2) = dr ++ st.globalTs ∧ ∀ t ∈ dr, 60 < n - t
  hml : ∀ c ∈ st.configs, c.rpm ≤ keyCap st.reqTs st.maxKeyRpm c.key
  hckey : ∀ c ∈ st.configs, ∀ w, countWin w (keyTimes c.key log) ≤ c.rpm
  hcglob : ∀ w, countWin w (log.map (·.2)) ≤ st.maxRpm

theorem winInv_mono {krs mrpm st log n} (n' : Rat)
    (h : WinInv krs mrpm st log n) (hn : n ≤ n') :
    WinInv krs mrpm st log n' where
  hkr := h.hkr
  hmax := h.hmax
  hnodup := h.hnodup
  hle := fun p hp => le_trans (h.hle p hp) hn
  hkey := fun c hc => by
    obtain ⟨dr, hdr, hcond⟩ := h.hkey c hc
    exact ⟨dr, hdr, fun t ht => by have := hcond t ht; linarith⟩
  hglob := by
    obtain ⟨dr, hdr, hcond⟩ := h.hglob
    exact ⟨dr, hdr, fun t ht => by have := hcond t ht; linarith⟩
  hml := h.hml
  hckey := h.hckey
  hcglob := h.hcglob

theorem winInv_transport {krs mrpm st log n} (st' : MgrState)
    (hc : st'.configs.map (fun c => (c.key, c.rpm))
        = st.configs.map (fun c => (c.key, c.rpm)))
    (hq : st'.reqTs = st.reqTs) (hg : st'.globalTs = st.globalTs)
    (hm : st'.maxRpm = st.maxRpm) (hmk : st'.maxKeyRpm = st.maxKeyRpm)
    (h : WinInv krs mrpm st log n) : WinInv krs mrpm st' log n := by
  have hmem : ∀ c' ∈ st'.configs, ∃ c ∈ st.configs, c.key = c'.key ∧ c.rpm = c'.rpm := by
    intro c' hc'
    have h1 : (c'.key, c'.rpm) ∈ st.configs.map (fun c => (c.key, c.rpm)) := by
      rw [← hc]
      exact List.mem_map_of_mem _ hc'
    obtain ⟨c, hcmem, hceq⟩ := List.mem_map.1 h1
    have h2 : c.key = c'.key ∧ c.rpm = c'.rpm := by
      constructor
      · exact congrArg Prod.fst hceq
      · exact congrArg Prod.snd hceq
    exact ⟨c, hcmem, h2⟩
  refine ⟨hc.trans h.hkr, hm.trans h.hmax, ?_, h.hle, ?_, ?_, ?_, ?_, ?_⟩
  · have hkk : st'.configs.map (·.key) = st.configs.map (·.key) := by
      have h1 := congrArg (List.map Prod.fst) hc
      simpa [List.map_map, Function.comp] using h1
    rw [hkk]
    exact h.hnodup
  · intro c' hc'
    obtain ⟨c, hcmem, hk, -⟩ := hmem c' hc'
    obtain ⟨dr, hdr, hcond⟩ := h.hkey c hcmem
    exact ⟨dr, by rw [hq, ← hk]; exact hdr, hcond⟩
  · obtain ⟨dr, hdr, hcond⟩ := h.hglob
    exact ⟨dr, by rw [hg]; exact hdr, hcond⟩
  · intro c' hc'
    obtain ⟨c, hcmem, hk, hr⟩ := hmem c' hc'
    rw [hq, hmk, ← hk, ← hr]
    exact h.hml c hcmem
  · intro c' hc' w
    obtain ⟨c, hcmem, hk, hr⟩ := hmem c' hc'
    rw [← hk, ← hr]
    exact h.hckey c hcmem w
  · intro w
    rw [hm]
    exact h.hcglob w

theorem updateFirst_map_kr (k : Nat) (f : KeyCfg → KeyCfg)
    (hf : ∀ x, (f x).key = x.key ∧ (f x).rpm = x.rpm) :
    ∀ l : List KeyCfg,
      (updateFirst l k f).map (fun c => (c.key, c.rpm))
        = l.map (fun c => (c.key, c.rpm)) := by
  intro l
  induction l with
  | nil => rfl
  | cons c rest ih =>
    rw [updateFirst]
    split_ifs with hc
    · simp only [List.map_cons, (hf c).1, (hf c).2]
    · simp only [List.map_cons, ih]

theorem reportSuccess_frame (k : Nat) (st : MgrState) :
    (reportSuccess k st).configs.map (fun c => (c.key, c.rpm))
        = st.configs.map (fun c => (c.key, c.rpm))
    ∧ (reportSuccess k st).reqTs = st.reqTs
    ∧ (reportSuccess k st).globalTs = st.globalTs
    ∧ (reportSuccess k st).maxRpm = st.maxRpm
    ∧ (reportSuccess k st).maxKeyRpm = st.maxKeyRpm := by
  refine ⟨?_, rfl, rfl, rfl, rfl⟩
  exact updateFirst_map_kr k (fun c => { c with cErrors := 0 })
    (fun x => ⟨rfl, rfl⟩) st.configs

theorem reportError_frame (now : Rat) (k : Nat) (st : MgrState) :
    (reportError now k st).configs.map (fun c => (c.key, c.rpm))
        = st.configs.map (fun c => (c.key, c.rpm))
    ∧ (reportError now k st).reqTs = st.reqTs
    ∧ (reportError now k st).globalTs = st.globalTs
    ∧ (reportError now k st).maxRpm = st.maxRpm
    ∧ (reportError now k st).maxKeyRpm = st.maxKeyRpm := by
  unfold reportError
  cases hf : st.configs.find? (fun c => c.key == k) with
  | none => exact ⟨rfl, rfl, rfl, rfl, rfl⟩
  | some c =>
    refine ⟨?_, rfl, rfl, rfl, rfl⟩
    exact updateFirst_map_kr k
      (fun c0 => { c0 with
        errors := c0.errors + 1
        cErrors := c0.cErrors + 1
        coolingUntil :=
          if 3 ≤ c0.cErrors + 1 then coolCalc now (c0.cErrors + 1)
          else c0.coolingUntil })
      (fun x => ⟨rfl, rfl⟩) st.configs

theorem winInv_cleanStep {krs mrpm st log n} (now : Rat)
    (h : WinInv krs mrpm st log n) (ht : n ≤ now) (st' : MgrState)
    (hc : st'.configs = st.configs)
    (hq : ∀ k, keyQ st'.reqTs k = keyQ st.reqTs k
        ∨ keyQ st'.reqTs k = cleanExpired now (keyQ st.reqTs k))
    (hcap : ∀ k, keyCap st'.reqTs st'.maxKeyRpm k = keyCap st.reqTs st.maxKeyRpm k)
    (hgl : st'.globalTs = st.globalTs ∨ st'.globalTs = cleanExpired now st.globalTs)
    (hm : st'.maxRpm = st.maxRpm) :
    WinInv krs mrpm st' log now := by
  refine ⟨?_, ?_, ?_, ?_, ?_, ?_, ?_, ?_, ?_⟩
  · rw [hc]; exact h.hkr
  · rw [hm]; exact h.hmax
  · rw [hc]; exact h.hnodup
  · exact fun p hp => le_trans (h.hle p hp) ht
  · intro c hcmem
    rw [hc] at hcmem
    obtain ⟨dr, hdr, hcond⟩ := h.hkey c hcmem
    rcases hq c.key with h1 | h1
    · exact ⟨dr, by rw [h1]; exact hdr,
        fun t htm => by have := hcond t htm; linarith⟩
    · obtain ⟨dr2, hq2, hcond2⟩ := cleanExpired_sub now (keyQ st.reqTs c.key)
      refine ⟨dr ++ dr2, ?_, ?_⟩
      · rw [h1, hdr]
        conv_lhs => rw [hq2]
        rw [List.append_assoc]
      · intro t htm
        rcases List.mem_append.1 htm with htm | htm
        · have := hcond t htm; linarith
        · exact hcond2 t htm
  · obtain ⟨dr, hdr, hcond⟩ := h.hglob
    rcases hgl with h1 | h1
    · exact ⟨dr, by rw [h1]; exact hdr,
        fun t htm => by have := hcond t htm; linarith⟩
    · obtain ⟨dr2, hq2, hcond2⟩ := cleanExpired_sub now st.globalTs
      refine ⟨dr ++ dr2, ?_, ?_⟩
      · rw [h1, hdr]
        conv_lhs => rw [hq2]
        rw [List.append_assoc]
      · intro t htm
        rcases List.mem_append.1 htm with htm | htm
        · have := hcond t htm; linarith
        · exact hcond2 t htm
  · intro c hcmem
    rw [hc] at hcmem
    rw [hcap]
    exact h.hml c hcmem
  · intro c hcmem
    rw [hc] at hcmem
    exact h.hckey c hcmem
  · intro w
    rw [hm]
    exact h.hcglob w

theorem tryAcquire_preserves (krs : List (Nat × Nat)) (mrpm : Nat) (now : Rat)
    (st : MgrState) (log : List (Nat × Rat)) (n : Rat)
    (h : WinInv krs mrpm st log n) (ht : n ≤ now) :
    WinInv krs mrpm (tryAcquire now st).2
      (log ++ ((tryAcquire now st).1.map (fun c => (c.key, now))).toList) now := by
  unfold tryAcquire
  by_cases hg : st.maxRpm ≤ (cleanExpired now st.globalTs).length
  · rw [if_pos hg]
    simp only [Option.map_none', Option.toList_none, List.append_nil]
    exact winInv_cleanStep now h ht _ rfl (fun k => Or.inl rfl) (fun k => rfl)
      (Or.inr rfl) rfl
  · rw [if_neg hg]
    have hglen : (cleanExpired now st.globalTs).length < st.maxRpm :=
      Nat.lt_of_not_le hg
    cases hsel : selectMax (availEntries now st (scanClean now st st.reqTs)) with
    | none =>
      simp only [Option.map_none', Option.toList_none, List.append_nil]
      exact winInv_cleanStep now h ht _ rfl
        (fun k => foldClean_keyQ now st.skippedKeys st.configs st.reqTs k)
        (fun k => foldClean_keyCap now st.skippedKeys st.maxKeyRpm st.configs st.reqTs k)
        (Or.inr rfl) rfl
    | some a =>
      simp only [Option.map_some', Option.toList_some]
      have hmem := selectMax_mem _ _ hsel
      obtain ⟨c0, hc0mem, hacfg, hakey, helig, hlenq⟩ :=
        availGo_mem now st (scanClean now st st.reqTs) st.configs 0 a hmem
      subst hacfg
      have hclean : keyQ (scanClean now st st.reqTs) a.cfg.key
          = cleanExpired now (keyQ st.reqTs a.cfg.key) :=
        foldClean_keyQ_elig now st.skippedKeys st.configs st.reqTs a.cfg.key
          ⟨a.cfg, hc0mem, rfl, helig⟩
      have hcap0 : a.cfg.rpm ≤ keyCap st.reqTs st.maxKeyRpm a.cfg.key :=
        h.hml a.cfg hc0mem
      have hcapd : keyCap (scanClean now st st.reqTs) st.maxKeyRpm a.cfg.key
          = keyCap st.reqTs st.maxKeyRpm a.cfg.key :=
        foldClean_keyCap now st.skippedKeys st.maxKeyRpm st.configs st.reqTs a.cfg.key
      have hlen2 : (keyQ (scanClean now st st.reqTs) a.cfg.key).length
          < keyCap (scanClean now st st.reqTs) st.maxKeyRpm a.cfg.key := by
        rw [hcapd]
        exact Nat.lt_of_lt_of_le hlenq hcap0
      have hlen3 : (keyQ (scanClean now st st.reqTs) a.key).length
          < keyCap (scanClean now st st.reqTs) st.maxKeyRpm a.key := by
        rw [hakey]; exact hlen2
      have hclean2 : keyQ (scanClean now st st.reqTs) a.key
          = cleanExpired now (keyQ st.reqTs a.key) := by
        rw [hakey]; exact hclean
      have happend : keyQ (qAppendNow st.maxKeyRpm (scanClean now st st.reqTs) a.key now) a.key
          = cleanExpired now (keyQ st.reqTs a.key) ++ [now] := by
        rw [keyQ_qAppendNow_self _ _ _ _ hlen3, hclean2]
      have hgapp : dequeAppend st.maxRpm (cleanExpired now st.globalTs) now
          = cleanExpired now st.globalTs ++ [now] :=
        dequeAppend_of_lt _ _ _ hglen
      refine ⟨h.hkr, h.hmax, h.hnodup, ?_, ?_, ?_, ?_, ?_, ?_⟩
      · intro p hp
        rcases List.mem_append.1 hp with hp | hp
        · exact le_trans (h.hle p hp) ht
        · simp only [List.mem_singleton] at hp
          exact le_of_eq (by rw [hp])
      · -- hkey
        intro c hcmem
        obtain ⟨dr, hdr, hcond⟩ := h.hkey c hcmem
        by_cases hck : (a.cfg.key == c.key) = true
        · have heq : a.cfg.key = c.key := by simpa using hck
          obtain ⟨dr2, hq2, hcond2⟩ := cleanExpired_sub now (keyQ st.reqTs c.key)
          refine ⟨dr ++ dr2, ?_, ?_⟩
          · rw [keyTimes_append, keyTimes_single_pos _ _ _ hck, hdr, hq2]
            have hkq : keyQ (qAppendNow st.maxKeyRpm (scanClean now st st.reqTs) a.key now) c.key
                = cleanExpired now (keyQ st.reqTs c.key) ++ [now] := by
              have hca : c.key = a.key := (hakey.trans heq).symm
              rw [hca]
              exact happend
            rw [hkq]
            simp [List.append_assoc]
          · intro t htm
            rcases List.mem_append.1 htm with htm | htm
            · have := hcond t htm; linarith
            · exact hcond2 t htm
        · have hck' : (a.cfg.key == c.key) = false := by simpa using hck
          rw [keyTimes_append, keyTimes_single_neg _ _ _ hck', List.append_nil]
          have hckc : (c.key == a.key) = false := by
            rw [hakey]
            have h1 : a.cfg.key ≠ c.key := by simpa using hck
            simpa using fun h2 => h1 h2.symm
          have hkq : keyQ (qAppendNow st.maxKeyRpm (scanClean now st st.reqTs) a.key now) c.key
              = keyQ (scanClean now st st.reqTs) c.key :=
            keyQ_qAppendNow_ne _ _ _ _ _ hckc
          rcases foldClean_keyQ now st.skippedKeys st.configs st.reqTs c.key with h1 | h1
          · have h1' : keyQ (scanClean now st st.reqTs) c.key = keyQ st.reqTs c.key := h1
            exact ⟨dr, by rw [hkq, h1']; exact hdr,
              fun t htm => by have := hcond t htm; linarith⟩
          · have h1' : keyQ (scanClean now st st.reqTs) c.key
                = cleanExpired now (keyQ st.reqTs c.key) := h1
            obtain ⟨dr2, hq2, hcond2⟩ := cleanExpired_sub now (keyQ st.reqTs c.key)
            refine ⟨dr ++ dr2, ?_, ?_⟩
            · rw [hkq, h1', hdr]
              conv_lhs => rw [hq2]
              rw [List.append_assoc]
            · intro t htm
              rcases List.mem_append.1 htm with htm | htm
              · have := hcond t htm; linarith
              · exact hcond2 t htm
      · -- hglob
        obtain ⟨dr, hdr, hcond⟩ := h.hglob
        obtain ⟨dr2, hq2, hcond2⟩ := cleanExpired_sub now st.globalTs
        refine ⟨dr ++ dr2, ?_, ?_⟩
        · simp only [List.map_append, List.map_cons, List.map_nil]
          rw [hgapp, hdr]
          conv_lhs => rw [hq2]
          simp [List.append_assoc]
        · intro t htm
          rcases List.mem_append.1 htm with htm | htm
          · have := hcond t htm; linarith
          · exact hcond2 t htm
      · -- hml
        intro c hcmem
        have hsc : keyCap (scanClean now st st.reqTs) st.maxKeyRpm c.key
            = keyCap st.reqTs st.maxKeyRpm c.key :=
          foldClean_keyCap now st.skippedKeys st.maxKeyRpm st.configs st.reqTs c.key
        have hcapq : keyCap (qAppendNow st.maxKeyRpm (scanClean now st st.reqTs) a.key now)
            st.maxKeyRpm c.key = keyCap st.reqTs st.maxKeyRpm c.key := by
          rw [keyCap_qAppendNow, hsc]
        rw [hcapq]
        exact h.hml c hcmem
      · -- hckey
        intro c hcmem w
        by_cases hck : (a.cfg.key == c.key) = true
        · have heq : a.cfg.key = c.key := by simpa using hck
          have hceq : c = a.cfg :=
            List.inj_on_of_nodup_map h.hnodup hcmem hc0mem heq.symm
          rw [keyTimes_append, keyTimes_single_pos _ _ _ hck]
          obtain ⟨dr, hdr, hcond⟩ := h.hkey c hcmem
          refine countWin_append_le (keyTimes c.key log) dr (keyQ st.reqTs c.key)
            n now w c.rpm hdr hcond ht (h.hckey c hcmem w) ?_
          rw [hceq, ← hclean]
          exact hlenq
        · have hck' : (a.cfg.key == c.key) = false := by simpa using hck
          rw [keyTimes_append, keyTimes_single_neg _ _ _ hck', List.append_nil]
          exact h.hckey c hcmem w
      · -- hcglob
        intro w
        obtain ⟨dr, hdr, hcond⟩ := h.hglob
        simp only [List.map_append, List.map_cons, List.map_nil]
        refine countWin_append_le (log.map (·.2)) dr st.globalTs n now w st.maxRpm
          hdr hcond ht (h.hcglob w) hglen

theorem stepMgr_preserves (krs : List (Nat × Nat)) (mrpm : Nat) (e : MgrEvent)
    (st : MgrState) (log : List (Nat × Rat)) (n : Rat)
    (h : WinInv krs mrpm st log n) (ht : n ≤ evTime e) :
    WinInv krs mrpm (stepMgr e st).1 (log ++ ((stepMgr e st).2).toList) (evTime e) := by
  cases e with
  | acquire now => exact tryAcquire_preserves krs mrpm now st log n h ht
  | repSuccess t k =>
    have hf := reportSuccess_frame k st
    have h2 := winInv_transport (reportSuccess k st) hf.1 hf.2.1 hf.2.2.1
      hf.2.2.2.1 hf.2.2.2.2 h
    have h3 := winInv_mono t h2 ht
    simpa [stepMgr, evTime] using h3
  | repError t k =>
    have hf := reportError_frame t k st
    have h2 := winInv_transport (reportError t k st) hf.1 hf.2.1 hf.2.2.1
      hf.2.2.2.1 hf.2.2.2.2 h
    have h3 := winInv_mono t h2 ht
    simpa [stepMgr, evTime] using h3

theorem runMgr_inv (krs : List (Nat × Nat)) (mrpm : Nat) :
    ∀ (events : List MgrEvent) (st : MgrState) (log : List (Nat × Rat)) (n : Rat),
      WinInv krs mrpm st log n →
      monoFrom n (events.map evTime) = true →
      ∃ n', WinInv krs mrpm (runMgr st events).1 (log ++ (runMgr st events).2) n' := by
  intro events
  induction events with
  | nil =>
    intro st log n h _
    exact ⟨n, by simpa [runMgr] using h⟩
  | cons e es ih =>
    intro st log n h hm
    simp only [List.map_cons, monoFrom, Bool.and_eq_true, decide_eq_true_eq] at hm
    obtain ⟨h1, h2⟩ := hm
    have hstep := stepMgr_preserves krs mrpm e st log n h h1
    obtain ⟨n', hinv⟩ := ih (stepMgr e st).1 (log ++ ((stepMgr e st).2).toList)
      (evTime e) hstep h2
    exact ⟨n', by simpa [runMgr, List.append_assoc] using hinv⟩

theorem keyQ_all_nil (d : List QEntry) (hall : ∀ e ∈ d, e.q = []) (k : Nat) :
    keyQ d k = [] := by
  cases hf : d.find? (fun e => e.key == k) with
  | none => simp [keyQ, hf]
  | some e =>
    have hmem := List.mem_of_find?_eq_some hf
    simp [keyQ, hf, hall e hmem]

theorem keyCap_init (mk : Nat) :
    ∀ (cfgs : List KeyCfg) (c : KeyCfg), (cfgs.map (·.key)).Nodup → c ∈ cfgs →
      keyCap (cfgs.map (fun c0 => (⟨c0.key, max c0.rpm 5, []⟩ : QEntry))) mk c.key
        = max c.rpm 5 := by
  intro cfgs
  induction cfgs with
  | nil =>
    intro c _ hc
    exact absurd hc (List.not_mem_nil c)
  | cons c0 rest ih =>
    intro c hnd hc
    simp only [List.map_cons] at hnd ⊢
    by_cases hk : (c0.key == c.key) = true
    · rw [keyCap_cons_pos _ _ _ _ hk]
      have hkeq : c0.key = c.key := by simpa using hk
      rcases List.mem_cons.1 hc with hceq | hcrest
      · rw [hceq]
      · exfalso
        have hmem : c.key ∈ rest.map (·.key) := List.mem_map_of_mem _ hcrest
        rw [← hkeq] at hmem
        exact (List.nodup_cons.1 hnd).1 hmem
    · have hk' : (c0.key == c.key) = false := by simpa using hk
      rw [keyCap_cons_neg _ _ _ _ hk']
      rcases List.mem_cons.1 hc with hceq | hcrest
      · exfalso
        rw [hceq] at hk'
        simp at hk'
      · exact ih c (List.nodup_cons.1 hnd).2 hcrest

theorem winInv_init (raw : List (Nat × Option Nat)) (maxRpm : Nat) (n : Rat)
    (hnd : (raw.map Prod.fst).Nodup) :
    WinInv ((initMgr raw maxRpm).configs.map (fun c => (c.key, c.rpm))) maxRpm
      (initMgr raw maxRpm) [] n := by
  have hkeys : (initMgr raw maxRpm).configs.map (·.key) = raw.map Prod.fst := by
    simp [initMgr, List.map_map, Function.comp]
  have hqnil : ∀ k, keyQ (initMgr raw maxRpm).reqTs k = [] := by
    intro k
    refine keyQ_all_nil _ ?_ k
    intro e he
    simp only [initMgr, List.mem_map] at he
    obtain ⟨c, -, hce⟩ := he
    rw [← hce]
  refine ⟨rfl, rfl, ?_, ?_, ?_, ?_, ?_, ?_, ?_⟩
  · rw [hkeys]; exact hnd
  · intro p hp
    exact absurd hp (List.not_mem_nil p)
  · intro c hc
    exact ⟨[], by simp [keyTimes, hqnil], by simp⟩
  · exact ⟨[], rfl, by simp⟩
  · intro c hc
    have hcap := keyCap_init (initMgr raw maxRpm).maxKeyRpm
      (initMgr raw maxRpm).configs c (by rw [hkeys]; exact hnd) hc
    exact le_of_le_of_eq (le_max_left _ _) hcap.symm
  · intro c hc w
    simp [keyTimes, countWin]
  · intro w
    simp [countWin]

/-- C1: starting from a freshly initialised `APIKeyManager` (distinct
keys) and any sequence of acquire polls, `report_success` and
`report_error` calls at nondecreasing wall-clock times, every credential
collects at most `rpm` successful acquires inside any closed 60-second
window, and the whole pool at most `max_rpm` — because a timestamp is
appended only after entries older than 60 s are evicted and the cleaned
window length has been checked against the limit. -/
theorem C1_window_bound (raw : List (Nat × Option Nat)) (maxRpm : Nat)
    (events : List MgrEvent) (n0 : Rat)
    (hnd : (raw.map Prod.fst).Nodup)
    (hmono : monoFrom n0 (events.map evTime) = true) :
    (∀ c ∈ (initMgr raw maxRpm).configs, ∀ w : Rat,
      countWin w (keyTimes c.key (runMgr (initMgr raw maxRpm) events).2) ≤ c.rpm)
    ∧ (∀ w : Rat,
      countWin w ((runMgr (initMgr raw maxRpm) events).2.map (·.2)) ≤ maxRpm) := by
  obtain ⟨n', hinv⟩ := runMgr_inv _ maxRpm events (initMgr raw maxRpm) [] n0
    (winInv_init raw maxRpm n0 hnd) hmono
  rw [List.nil_append] at hinv
  constructor
  · intro c hc w
    have h1 : (c.key, c.rpm)
        ∈ (runMgr (initMgr raw maxRpm) events).1.configs.map (fun c => (c.key, c.rpm)) := by
      rw [hinv.hkr]
      exact List.mem_map_of_mem _ hc
    obtain ⟨c', hc'mem, hc'eq⟩ := List.mem_map.1 h1
    have hk : c'.key = c.key := congrArg Prod.fst hc'eq
    have hr : c'.rpm = c.rpm := congrArg Prod.snd hc'eq
    rw [← hk, ← hr]
    exact hinv.hckey c' hc'mem w
  · intro w
    have h2 := hinv.hcglob w
    rwa [hinv.hmax] at h2

/-- Witness for `C1_window_bound`: one credential with rpm 3, four
immediate acquire polls. -/
theorem C1_window_bound_witness :
    countWin 0 (keyTimes 0 (runMgr (initMgr [(0, some 3)] 20)
      [MgrEvent.acquire 0, MgrEvent.acquire 0, MgrEvent.acquire 0,
       MgrEvent.acquire 0]).2) ≤ 3 := by
  have h := C1_window_bound [(0, some 3)] 20
    [MgrEvent.acquire 0, MgrEvent.acquire 0, MgrEvent.acquire 0, MgrEvent.acquire 0]
    0 (by decide) (by decide)
  exact h.1 ⟨0, 3, 0, 0, 0⟩ (show _ ∈ [(⟨0, 3, 0, 0, 0⟩ : KeyCfg)] from
    List.mem_singleton.2 rfl) 0

/-- C2: whenever a `get_key_config` poll selects and returns a credential,
that credential's key is not in the skipped set and its cooling deadline
has passed at the selection time (key_manager.py lines 104–136); the wait
loop can only hand out credentials produced by such a poll. -/
theorem C2_no_skipped_or_cooling (now : Rat) (st : MgrState) (c : KeyCfg)
    (h : (tryAcquire now st).1 = some c) :
    st.skippedKeys.contains c.key = false ∧ c.coolingUntil ≤ now := by
  unfold tryAcquire at h
  split_ifs at h with hg
  cases hsel : selectMax (availEntries now st (scanClean now st st.reqTs)) with
  | none =>
    rw [hsel] at h
    simp at h
  | some a =>
    rw [hsel] at h
    have hac : a.cfg = c := by
      simpa using h
    obtain ⟨c0, hc0mem, hacfg, hakey, helig, hlenq⟩ :=
      availGo_mem now st (scanClean now st st.reqTs) st.configs 0 a
        (selectMax_mem _ _ hsel)
    have hcc0 : c = c0 := hac.symm.trans hacfg
    rw [eligible, Bool.and_eq_true, decide_eq_true_eq] at helig
    obtain ⟨hcool, hskip⟩ := helig
    have hskip' : st.skippedKeys.contains c0.key = false := by
      revert hskip
      cases st.skippedKeys.contains c0.key <;> simp
    rw [hcc0]
    exact ⟨hskip', hcool⟩

theorem tryAcquire_single (now : Rat) (st : MgrState) (c : KeyCfg)
    (hcfg : st.configs = [c]) (hsk : st.skippedKeys = [])
    (hcool : c.coolingUntil ≤ now)
    (hq : st.reqTs = [⟨c.key, max c.rpm 5, []⟩]) (hglob : st.globalTs = [])
    (hmax : 0 < st.maxRpm) (hrpm : 0 < c.rpm) :
    (tryAcquire now st).1 = some c := by
  have helig : eligible now st.skippedKeys c = true := by
    rw [eligible, hsk]
    simp [hcool]
  have hscan : scanClean now st st.reqTs = st.reqTs := by
    rw [scanClean_eq_fold, hcfg]
    simp only [List.foldl_cons, List.foldl_nil, helig, if_true]
    rw [hq]
    simp [qClean, cleanExpired]
  have hkl : keyQLen st.reqTs c.key = 0 := by
    rw [hq]
    simp [keyQLen, keyQ, List.find?]
  have havail : availEntries now st st.reqTs
      = [⟨c.key, scoreOf st 0 c 0, c, 0⟩] := by
    rw [availEntries, hcfg, availGo, availGo]
    simp [helig, hkl, hrpm]
  unfold tryAcquire
  rw [hglob, cleanExpired_nil]
  rw [if_neg (by simp only [List.length_nil, Nat.le_zero]; omega)]
  rw [hscan, havail]
  simp [selectMax]

/-- Witness for `C2_no_skipped_or_cooling`: the fresh single-credential
pool `mgrA` hands out its credential at time 0, which is indeed neither
skipped nor cooling. -/
theorem C2_no_skipped_or_cooling_witness :
    mgrA.skippedKeys.contains (⟨0, 5, 0, 2, 0⟩ : KeyCfg).key = false
    ∧ (⟨0, 5, 0, 2, 0⟩ : KeyCfg).coolingUntil ≤ 0 :=
  C2_no_skipped_or_cooling 0 mgrA ⟨0, 5, 0, 2, 0⟩
    (tryAcquire_single 0 mgrA ⟨0, 5, 0, 2, 0⟩ rfl rfl (le_refl 0) rfl rfl
      (by decide) (by decide))

/-! ## C8: starved wait loop -/

theorem availGo_nil_of_skipped (now : Rat) (st : MgrState) (d : List QEntry) :
    ∀ (cs : List KeyCfg) (i : Nat),
      (∀ c ∈ cs, st.skippedKeys.contains c.key = true) →
      availGo now st d cs i = [] := by
  intro cs
  induction cs with
  | nil => intro i _; rfl
  | cons c cs ih =>
    intro i hsk
    rw [availGo]
    have helig : eligible now st.skippedKeys c = false := by
      rw [eligible, hsk c (List.mem_cons_self c cs)]
      simp
    rw [if_neg (by rw [helig]; simp)]
    rw [List.nil_append]
    exact ih (i + 1) (fun c0 hc0 => hsk c0 (List.mem_cons_of_mem c hc0))

theorem map_congr_mem {A B : Type} (f g : A → B) :
    ∀ (l : List A), (∀ a ∈ l, f a = g a) → l.map f = l.map g := by
  intro l
  induction l with
  | nil => intro _; rfl
  | cons a l ih =>
    intro h
    simp only [List.map_cons]
    rw [h a (List.mem_cons_self a l), ih (fun x hx => h x (List.mem_cons_of_mem a hx))]

theorem tryAcquire_starved (now : Rat) (st : MgrState)
    (hsk : ∀ c ∈ st.configs, st.skippedKeys.contains c.key = true) :
    (tryAcquire now st).1 = none
    ∧ (tryAcquire now st).2.configs = st.configs
    ∧ (tryAcquire now st).2.skippedKeys = st.skippedKeys
    ∧ (tryAcquire now st).2.succRates = st.succRates
    ∧ (tryAcquire now st).2.nextKeyIndex = st.nextKeyIndex
    ∧ (∀ k, keyQ (tryAcquire now st).2.reqTs k <:+ keyQ st.reqTs k)
    ∧ (tryAcquire now st).2.globalTs <:+ st.globalTs := by
  have havail : availEntries now st (scanClean now st st.reqTs) = [] :=
    availGo_nil_of_skipped now st _ st.configs 0 hsk
  by_cases hg : st.maxRpm ≤ (cleanExpired now st.globalTs).length
  · have heq : tryAcquire now st
        = (none, { st with globalTs := cleanExpired now st.globalTs }) := by
      unfold tryAcquire
      rw [if_pos hg]
    rw [heq]
    exact ⟨rfl, rfl, rfl, rfl, rfl, fun k => List.suffix_refl _,
      cleanExpired_suffix now st.globalTs⟩
  · have heq : tryAcquire now st
        = (none, { st with
            globalTs := cleanExpired now st.globalTs
            reqTs := scanClean now st st.reqTs }) := by
      unfold tryAcquire
      rw [if_neg hg, havail]
      rfl
    rw [heq]
    refine ⟨rfl, rfl, rfl, rfl, rfl, ?_, cleanExpired_suffix now st.globalTs⟩
    intro k
    show keyQ (scanClean now st st.reqTs) k <:+ keyQ st.reqTs k
    rcases foldClean_keyQ now st.skippedKeys st.configs st.reqTs k with h1 | h1
    · have h1' : keyQ (scanClean now st st.reqTs) k = keyQ st.reqTs k := h1
      rw [h1']
    · have h1' : keyQ (scanClean now st st.reqTs) k
          = cleanExpired now (keyQ st.reqTs k) := h1
      rw [h1']
      exact cleanExpired_suffix now _

theorem getKeyConfigLoop_cons_none (now : Rat) (rest : List Rat) (st : MgrState)
    (wa bc : Nat) (st2 : MgrState) (h : tryAcquire now st = (none, st2)) :
    getKeyConfigLoop (now :: rest) st wa bc
      = ⟨(getKeyConfigLoop rest st2 (wa + 1) (if (wa + 1) % 3 = 0 then bc + 1 else bc)).result,
         (getKeyConfigLoop rest st2 (wa + 1) (if (wa + 1) % 3 = 0 then bc + 1 else bc)).st,
         (getKeyConfigLoop rest st2 (wa + 1) (if (wa + 1) % 3 = 0 then bc + 1 else bc)).polls + 1,
         min ((1 / 2) * 2 ^ bc) 5
           :: (getKeyConfigLoop rest st2 (wa + 1) (if (wa + 1) % 3 = 0 then bc + 1 else bc)).sleeps⟩ := by
  simp only [getKeyConfigLoop]
  rw [h]

theorem getKeyConfigLoop_starved :
    ∀ (times : List Rat) (st : MgrState) (wa bc : Nat),
      (∀ c ∈ st.configs, st.skippedKeys.contains c.key = true) →
      (getKeyConfigLoop times st wa bc).result = none
      ∧ (getKeyConfigLoop times st wa bc).polls = times.length
      ∧ (getKeyConfigLoop times st wa bc).sleeps
          = (List.range times.length).map
              (fun j => min ((1 / 2 : Rat) * 2 ^ (bc + ((wa + j) / 3 - wa / 3))) 5)
      ∧ (getKeyConfigLoop times st wa bc).st.configs = st.configs
      ∧ (getKeyConfigLoop times st wa bc).st.skippedKeys = st.skippedKeys
      ∧ (getKeyConfigLoop times st wa bc).st.succRates = st.succRates
      ∧ (getKeyConfigLoop times st wa bc).st.nextKeyIndex = st.nextKeyIndex
      ∧ (∀ k, keyQ (getKeyConfigLoop times st wa bc).st.reqTs k <:+ keyQ st.reqTs k)
      ∧ (getKeyConfigLoop times st wa bc).st.globalTs <:+ st.globalTs := by
  intro times
  induction times with
  | nil =>
    intro st wa bc _
    exact ⟨rfl, rfl, by simp [getKeyConfigLoop], rfl, rfl, rfl, rfl,
      fun k => List.suffix_refl _, List.suffix_refl _⟩
  | cons now rest ih =>
    intro st wa bc hsk
    obtain ⟨ha1, ha2, ha3, ha4, ha5, ha6, ha7⟩ := tryAcquire_starved now st hsk
    have hpair : tryAcquire now st = (none, (tryAcquire now st).2) := by
      rw [← ha1]
    have hsk2 : ∀ c ∈ (tryAcquire now st).2.configs,
        (tryAcquire now st).2.skippedKeys.contains c.key = true := by
      intro c hc
      rw [ha2] at hc
      rw [ha3]
      exact hsk c hc
    obtain ⟨hb1, hb2, hb3, hb4, hb5, hb6, hb7, hb8, hb9⟩ :=
      ih (tryAcquire now st).2 (wa + 1) (if (wa + 1) % 3 = 0 then bc + 1 else bc) hsk2
    rw [getKeyConfigLoop_cons_none now rest st wa bc (tryAcquire now st).2 hpair]
    refine ⟨hb1, by rw [hb2]; rfl, ?_, by rw [hb4, ha2], by rw [hb5, ha3],
      by rw [hb6, ha4], by rw [hb7, ha5], ?_, hb9.trans ha7⟩
    · show min ((1 / 2 : Rat) * 2 ^ bc) 5
          :: (getKeyConfigLoop rest (tryAcquire now st).2 (wa + 1)
              (if (wa + 1) % 3 = 0 then bc + 1 else bc)).sleeps
        = (List.range (now :: rest).length).map
            (fun j => min ((1 / 2 : Rat) * 2 ^ (bc + ((wa + j) / 3 - wa / 3))) 5)
      rw [hb3]
      have hlen : (now :: rest).length = rest.length + 1 := rfl
      rw [hlen, List.range_succ_eq_map, List.map_cons, List.map_map]
      congr 1
      · have he : bc + ((wa + 0) / 3 - wa / 3) = bc := by omega
        rw [he]
      · refine map_congr_mem _ _ _ ?_
        intro j _
        simp only [Function.comp_apply, Nat.succ_eq_add_one]
        have hexp : (if (wa + 1) % 3 = 0 then bc + 1 else bc)
              + ((wa + 1 + j) / 3 - (wa + 1) / 3)
            = bc + ((wa + (j + 1)) / 3 - wa / 3) := by
          split_ifs with hm <;> omega
        rw [hexp]
    · intro k
      exact (hb8 k).trans (ha6 k)

theorem backoffSched_sum : backoffSched.sum = 525 / 2 := by
  norm_num [backoffSched, List.range_succ, min_def]

/-- A single-credential pool whose only key is skipped: no credential can
ever become available. -/
def mgrS : MgrState :=
  { configs := [⟨0, 5, 0, 0, 0⟩]
    maxRpm := 20
    maxKeyRpm := 5
    reqTs := [⟨0, 5, []⟩]
    globalTs := []
    succRates := [(0, 1)]
    nextKeyIndex := 0
    skippedKeys := [0] }

theorem mgrS_starved : ∀ c ∈ mgrS.configs, mgrS.skippedKeys.contains c.key = true := by
  intro c hc
  rw [show mgrS.configs = [⟨0, 5, 0, 0, 0⟩] from rfl, List.mem_singleton] at hc
  rw [hc]
  rfl

/-- C8 (counterexample): on a pool whose every key is skipped,
`get_key_config` does not give up after a 30-second wall clock: it runs
all 60 polls, and the mandatory backoff sleeps alone total 262.5 seconds
(0.5 s × 3, 1 s × 3, 2 s × 3, 4 s × 3, then 5 s × 48) before `None` is
returned — more than eight times the claimed 30-second timeout. -/
theorem C8_counterexample :
    (getKeyConfig (List.replicate 60 (0 : Rat)) mgrS).result = none
    ∧ (getKeyConfig (List.replicate 60 (0 : Rat)) mgrS).polls = 60
    ∧ (getKeyConfig (List.replicate 60 (0 : Rat)) mgrS).sleeps.sum = 525 / 2
    ∧ ¬ (getKeyConfig (List.replicate 60 (0 : Rat)) mgrS).sleeps.sum ≤ 30 := by
  obtain ⟨h1, h2, h3, -⟩ :=
    getKeyConfigLoop_starved ((List.replicate 60 (0 : Rat)).take 60) mgrS 0 0 mgrS_starved
  have hlen : ((List.replicate 60 (0 : Rat)).take 60).length = 60 := by simp
  have hsched : (getKeyConfig (List.replicate 60 (0 : Rat)) mgrS).sleeps = backoffSched := by
    show (getKeyConfigLoop ((List.replicate 60 (0 : Rat)).take 60) mgrS 0 0).sleeps = backoffSched
    rw [h3, hlen]
    simp [backoffSched]
  refine ⟨h1, ?_, ?_, ?_⟩
  · show (getKeyConfigLoop ((List.replicate 60 (0 : Rat)).take 60) mgrS 0 0).polls = 60
    rw [h2, hlen]
  · rw [hsched]
    exact backoffSched_sum
  · rw [hsched, backoffSched_sum]
    norm_num

/-- C8 (amended): when no credential can become available (every key
skipped), `get_key_config` polls exactly 60 times, sleeping
`min(0.5·2^k, 5)` seconds per failed poll with `k` incremented every
three polls — 262.5 s of sleep in total, not a 30-second wall-clock
timeout — then returns `None` without appending any request timestamp
(each queue ends as a suffix of what it was, only expired entries having
been evicted) and without touching error counters, rates, the cursor or
the skipped set. -/
theorem C8_starved_backoff (times : List Rat) (st : MgrState)
    (h60 : 60 ≤ times.length)
    (hsk : ∀ c ∈ st.configs, st.skippedKeys.contains c.key = true) :
    (getKeyConfig times st).result = none
    ∧ (getKeyConfig times st).polls = 60
    ∧ (getKeyConfig times st).sleeps = backoffSched
    ∧ (getKeyConfig times st).sleeps.sum = 525 / 2
    ∧ (getKeyConfig times st).st.configs = st.configs
    ∧ (getKeyConfig times st).st.skippedKeys = st.skippedKeys
    ∧ (getKeyConfig times st).st.succRates = st.succRates
    ∧ (getKeyConfig times st).st.nextKeyIndex = st.nextKeyIndex
    ∧ (∀ k, keyQ (getKeyConfig times st).st.reqTs k <:+ keyQ st.reqTs k)
    ∧ (getKeyConfig times st).st.globalTs <:+ st.globalTs := by
  obtain ⟨h1, h2, h3, h4, h5, h6, h7, h8, h9⟩ :=
    getKeyConfigLoop_starved (times.take 60) st 0 0 hsk
  have hlen : (times.take 60).length = 60 := by
    rw [List.length_take]
    omega
  have hsched : (getKeyConfig times st).sleeps = backoffSched := by
    show (getKeyConfigLoop (times.take 60) st 0 0).sleeps = backoffSched
    rw [h3, hlen]
    simp [backoffSched]
  exact ⟨h1, by show (getKeyConfigLoop (times.take 60) st 0 0).polls = 60; rw [h2, hlen],
    hsched, by rw [hsched]; exact backoffSched_sum, h4, h5, h6, h7, h8, h9⟩

/-- Witness for `C8_starved_backoff` on the all-skipped pool `mgrS`. -/
theorem C8_starved_backoff_witness :
    (getKeyConfig (List.replicate 60 (1 : Rat)) mgrS).result = none
    ∧ (getKeyConfig (List.replicate 60 (1 : Rat)) mgrS).polls = 60 := by
  have h := C8_starved_backoff (List.replicate 60 (1 : Rat)) mgrS (by simp) mgrS_starved
  exact ⟨h.1, h.2.1⟩
